import Mathlib

/-
  Verification of the file provenance-reconciliation and fixup engine of the
  extract-utils repository.  The Python sources are shallowly embedded:
  strings become `List Char`, Python dicts become insertion-ordered
  association lists, exceptions become `Except PyErr`, and the stateful
  per-file reconciliation procedures become pure functions that additionally
  return the list of observable actions (copy attempts, fixup runs, colored
  prints) they would perform.
-/

namespace ExtractUtils

/-- Python strings are modelled as lists of characters. -/
abbrev Str := List Char

/-- Python exception kinds raised by the embedded code. -/
inductive PyErr where
  | valueError
  | keyError
  | assertionError
  | indexError
deriving DecidableEq, Repr

/-- Decidable equality for `Except` results, used to evaluate the embedded
code on concrete inputs. -/
instance {ε α : Type} [DecidableEq ε] [DecidableEq α] :
    DecidableEq (Except ε α) := fun x y =>
  match x, y with
  | .ok a, .ok b =>
    if h : a = b then isTrue (by rw [h])
    else isFalse (by intro hc; cases hc; exact h rfl)
  | .error a, .error b =>
    if h : a = b then isTrue (by rw [h])
    else isFalse (by intro hc; cases hc; exact h rfl)
  | .ok _, .error _ => isFalse (by intro hc; cases hc)
  | .error _, .ok _ => isFalse (by intro hc; cases hc)

/-- Separator characters of the directive grammar (`SEPARATORS = ';:|'`). -/
def isSep (c : Char) : Bool :=
  c = ';' || c = ':' || c = '|'

/-- Whitespace characters stripped by Python `str.strip()`. -/
def pyIsSpace (c : Char) : Bool :=
  c = ' ' || c = '\t' || c = '\n' || c = '\r' || c = '\x0b' || c = '\x0c'

/-- Python `str.strip()`. -/
def pyStrip (l : Str) : Str :=
  ((l.dropWhile pyIsSpace).reverse.dropWhile pyIsSpace).reverse

/-- Token accumulation helper for `extrasScan`: `s` is the separator that
opened the current candidate match and `acc` holds the token collected so
far, reversed.  A candidate whose token stays empty is abandoned, exactly as
the regex finds no match at that position. -/
def scanTok : Char → Str → Str → List (Char × Str)
  | s, acc, [] => if acc.isEmpty then [] else [(s, acc.reverse)]
  | s, acc, c :: rest =>
    if isSep c then
      if acc.isEmpty then scanTok c [] rest
      else (s, acc.reverse) :: scanTok c [] rest
    else scanTok s (c :: acc) rest

/-- Scan mirroring `EXTRA_REGEX.findall`, which collects every occurrence of
a separator character followed by a maximal nonempty run of non-separator
characters. -/
def extrasScan : Str → List (Char × Str)
  | [] => []
  | c :: rest => if isSep c then scanTok c [] rest else extrasScan rest

/-- Python `s.split(sep, 1)`: split at the first occurrence only. -/
def splitOnceChar (sep : Char) : Str → Str × Option Str
  | [] => ([], none)
  | c :: rest =>
    if c = sep then ([], some rest)
    else
      let (a, b) := splitOnceChar sep rest
      (c :: a, b)

/-- Python `s.split(sep)` for a single-character separator: every occurrence
splits, empty pieces are kept, and the empty string yields one empty piece. -/
def splitOnChar (sep : Char) : Str → List Str
  | [] => [[]]
  | c :: rest =>
    if c = sep then [] :: splitOnChar sep rest
    else
      match splitOnChar sep rest with
      | [] => [[c]]
      | h :: t => (c :: h) :: t

/-- Index of the last occurrence of a character satisfying `p`, if any. -/
def lastIdxP (p : Char → Bool) (l : Str) : Option Nat :=
  l.enum.foldl (fun acc ic => if p ic.2 then some ic.1 else acc) none

/-- Python `os.path.splitext` restricted to a basename (no path separator):
split at the last dot, unless every character before it is itself a dot. -/
def pySplitext (b : Str) : Str × Str :=
  match lastIdxP (fun c => c = '.') b with
  | none => (b, [])
  | some i =>
    if (b.take i).any (fun c => c ≠ '.') then (b.take i, b.drop i)
    else (b, [])

/-- Argument names recognized in a directive (`class FileArgs`). -/
inductive FileArgs where
  | AB
  | MAKE_COPY_RULE
  | MODULE
  | MODULE_SUFFIX
  | DISABLE_CHECKELF
  | DISABLE_DEPS
  | FIX_SONAME
  | FIX_XML
  | OVERRIDES
  | PRESIGNED
  | REQUIRED
  | SYMLINK
deriving DecidableEq, Repr

/-- Textual name of each argument, as used in directives. -/
def argName : FileArgs → Str
  | .AB => "AB".data
  | .MAKE_COPY_RULE => "MAKE_COPY_RULE".data
  | .MODULE => "MODULE".data
  | .MODULE_SUFFIX => "MODULE_SUFFIX".data
  | .DISABLE_CHECKELF => "DISABLE_CHECKELF".data
  | .DISABLE_DEPS => "DISABLE_DEPS".data
  | .FIX_SONAME => "FIX_SONAME".data
  | .FIX_XML => "FIX_XML".data
  | .OVERRIDES => "OVERRIDES".data
  | .PRESIGNED => "PRESIGNED".data
  | .REQUIRED => "REQUIRED".data
  | .SYMLINK => "SYMLINK".data

/-- All argument names, in declaration order. -/
def allFileArgs : List FileArgs :=
  [.AB, .MAKE_COPY_RULE, .MODULE, .MODULE_SUFFIX, .DISABLE_CHECKELF,
   .DISABLE_DEPS, .FIX_SONAME, .FIX_XML, .OVERRIDES, .PRESIGNED,
   .REQUIRED, .SYMLINK]

/-- Lookup mirroring Python `FileArgs[k]` (raises `KeyError` when absent). -/
def fileArgsOfName (s : Str) : Option FileArgs :=
  allFileArgs.find? (fun a => decide (argName a = s))

/-- Shape of an argument's value (`FILE_ARGS_TYPE_MAP` entry kinds). -/
inductive ArgTy where
  | flag
  | scalar
  | listTy
deriving DecidableEq, Repr

/-- The static table `FILE_ARGS_TYPE_MAP`. -/
def argTypeOf : FileArgs → ArgTy
  | .AB => .flag
  | .MAKE_COPY_RULE => .flag
  | .MODULE => .scalar
  | .MODULE_SUFFIX => .scalar
  | .DISABLE_CHECKELF => .flag
  | .DISABLE_DEPS => .flag
  | .FIX_SONAME => .flag
  | .FIX_XML => .flag
  | .OVERRIDES => .listTy
  | .PRESIGNED => .flag
  | .REQUIRED => .listTy
  | .SYMLINK => .listTy

/-- Values stored in a file's argument dictionary: the Python literal
`True`, a string, or a list of strings. -/
inductive ArgVal where
  | vTrue
  | vStr (s : Str)
  | vList (l : List Str)
deriving DecidableEq, Repr

/-- Truthiness of an `ArgVal` under Python's `not v`. -/
def argValTruthy : ArgVal → Bool
  | .vTrue => true
  | .vStr s => !s.isEmpty
  | .vList l => !l.isEmpty

/-- First-occurrence lookup in an insertion-ordered dictionary. -/
def dictGet {α β : Type} [DecidableEq α] (d : List (α × β)) (k : α) : Option β :=
  (d.find? (fun p => decide (p.1 = k))).map (fun p => p.2)

/-- Replace the value at the first occurrence of `k`, or append when absent,
mirroring Python dict assignment. -/
def dictSet {α β : Type} [DecidableEq α] : List (α × β) → α → β → List (α × β)
  | [], k, v => [(k, v)]
  | (k0, v0) :: rest, k, v =>
    if k0 = k then (k, v) :: rest else (k0, v0) :: dictSet rest k v

/-- The parsed representation of one directive line (`class File`). -/
structure File where
  is_package : Bool
  src : Str
  dst : Str
  has_dst : Bool
  args : List (FileArgs × ArgVal)
  hash : Option Str
  fixup_hash : Option Str
  parts : List Str
  partition : Str
  basename : Str
  dirname : Str
  root : Str
  ext : Str
deriving DecidableEq, Repr

/-- Translation of `File.set_arg`: validate the value shape against the
static table and store it, accumulating comma-split entries for list-typed
arguments. -/
def File.set_arg (f : File) (ks : Str) (v : ArgVal) : Except PyErr File := do
  let k ← match fileArgsOfName ks with
    | some k => pure k
    | none => throw .keyError
  let kty := argTypeOf k
  if (kty = ArgTy.flag ∧ v ≠ ArgVal.vTrue)
      ∨ (kty = ArgTy.scalar ∧ argValTruthy v = false)
      ∨ (kty = ArgTy.listTy ∧ argValTruthy v = false) then
    throw .valueError
  match kty with
  | .flag => pure { f with args := dictSet f.args k .vTrue }
  | .scalar => pure { f with args := dictSet f.args k v }
  | .listTy =>
    let items ← match v with
      | .vStr s => pure (splitOnChar ',' s)
      | .vList l => pure l
      | .vTrue => throw .assertionError
    match dictGet f.args k with
    | none => pure { f with args := f.args ++ [(k, .vList items)] }
    | some (.vList old) =>
      pure { f with args := dictSet f.args k (.vList (old ++ items)) }
    | some _ => throw .assertionError

/-- Translation of `File.set_dst`: a destination equal to the source (or an
absent one) leaves `has_dst` false. -/
def File.set_dst (f : File) (dst : Option Str) : File :=
  match dst with
  | none => { f with dst := f.src, has_dst := false }
  | some d =>
    if d = f.src then { f with dst := f.src, has_dst := false }
    else { f with dst := d, has_dst := true }

/-- Translation of `File.set_hash`. -/
def File.set_hash (f : File) (h : Option Str) : File :=
  { f with hash := h }

/-- Translation of `File.set_fixup_hash`. -/
def File.set_fixup_hash (f : File) (h : Option Str) : File :=
  { f with fixup_hash := h }

/-- Processing of one `(separator, extra)` pair inside `File.__parse_extras`,
threading the accumulated hash list. -/
def File.procExtra (st : File × List Str) (pe : Char × Str) :
    Except PyErr (File × List Str) := do
  let (file, hashes) := st
  let (pfx, extra) := pe
  if extra = [] then throw .valueError
  else if pfx = ':' then
    pure (file.set_dst (some extra), hashes)
  else if pfx = ';' then
    let (k, vOpt) := splitOnceChar '=' extra
    let v : ArgVal := match vOpt with
      | none => .vTrue
      | some s => .vStr s
    let file2 ← file.set_arg k v
    pure (file2, hashes)
  else if pfx = '|' then
    pure (file, hashes ++ [extra])
  else throw .valueError

/-- Translation of `File.__parse_extras`. -/
def File.parse_extras (f : File) (l : Str) : Except PyErr File := do
  let (f2, hashes) ← (extrasScan l).foldlM File.procExtra (f, ([] : List Str))
  if hashes.length > 2 then throw .valueError
  let h : Option Str := hashes.head?
  let fh : Option Str := hashes.tail.head?
  pure ((f2.set_hash h).set_fixup_hash fh)

/-- Translation of `File.__init__`: strip the line, consume a leading `-`,
read the source, process the extra clauses, then compute the derived path
fields from the destination. -/
def mkFile (line0 : Str) : Except PyErr File := do
  let line1 := pyStrip line0
  let (isPkg, line) ← match line1 with
    | [] => throw PyErr.indexError
    | c :: rest =>
      pure (if c = '-' then (true, rest) else (false, line1))
  let srcTok := line.takeWhile (fun c => !isSep c)
  if srcTok = [] then throw .valueError
  let f0 : File :=
    { is_package := isPkg, src := srcTok, dst := srcTok, has_dst := false,
      args := [], hash := none, fixup_hash := none, parts := [],
      partition := [], basename := [], dirname := [], root := [], ext := [] }
  let f1 ← f0.parse_extras line
  let parts := splitOnChar '/' f1.dst
  let basename := parts.getLastD []
  let bplen := basename.length + 1
  let dirname := f1.dst.take (f1.dst.length - bplen)
  let (root, ext) := pySplitext basename
  pure { f1 with parts := parts, partition := parts.headD [],
                 basename := basename, dirname := dirname,
                 root := root, ext := ext }

/-- Rendering of one argument value inside `File.__str__`: nothing for the
flag literal `True`, `=value` for scalars, `=a,b,c` for lists. -/
def renderVal : ArgVal → Str
  | .vTrue => []
  | .vStr s => '=' :: s
  | .vList l => '=' :: List.intercalate [','] l

/-- Translation of `File.__str__`: render a parsed directive back to text. -/
def File.render (f : File) : Str :=
  (if f.is_package then ['-'] else [])
  ++ f.src
  ++ (if f.has_dst then ':' :: f.dst else [])
  ++ (f.args.map (fun kv => ';' :: (argName kv.1 ++ renderVal kv.2))).flatten
  ++ (match f.hash with | some h => '|' :: h | none => [])
  ++ (match f.fixup_hash with | some h => '|' :: h | none => [])

/-- Translation of `File.contains_path_parts`: sliding-window comparison of
consecutive path segments. -/
def File.contains_path_parts (f : File) (pp : List Str) : Bool :=
  (List.range (f.parts.length - pp.length + 1)).any
    (fun i => decide ((f.parts.drop i).take pp.length = pp))

/-- Node of the recursive `file_tree_dict`: an interior string-keyed mapping,
a leaf list of files, or the `None` marker left by destructive filtering. -/
inductive FTNode where
  | dict (es : List (Str × FTNode))
  | files (fs : List File)
  | null

instance : Inhabited FTNode := ⟨FTNode.null⟩

/-- Test for the `None` marker (`v is not None` in the source). -/
def FTNode.isNull : FTNode → Bool
  | .null => true
  | _ => false

/-- Python `dict.setdefault`: return the existing value, or append the
default when the key is absent. -/
def setdefaultNode (es : List (Str × FTNode)) (k : Str) (dflt : FTNode) :
    List (Str × FTNode) × FTNode :=
  match dictGet es k with
  | some v => (es, v)
  | none => (es ++ [(k, dflt)], dflt)

/-- Translation of `FileTree.add_with_parts` on the raw dictionary: walk the
directory parts creating interior nodes, then append the file at the leaf;
a nonempty leaf in non-common mode is a duplicate entry (`ValueError`). -/
def addWithParts (common : Bool) (f : File) :
    List (Str × FTNode) → List Str → Except PyErr (List (Str × FTNode))
  | _, [] => throw .indexError
  | es, [filePart] =>
    let (es1, v) := setdefaultNode es filePart (.files [])
    match v with
    | .files fs =>
      if !common && !fs.isEmpty then throw .valueError
      else pure (dictSet es1 filePart (.files (fs ++ [f])))
    | _ => throw .assertionError
  | es, part :: rest₁ :: rest₂ =>
    let (es1, v) := setdefaultNode es part (.dict [])
    match v with
    | .dict sub => do
      let sub2 ← addWithParts common f sub (rest₁ :: rest₂)
      pure (dictSet es1 part (.dict sub2))
    | _ => throw .assertionError

/-- Translation of `FileTree._files_list`: depth-first iteration yielding the
leaf file lists, skipping `None` markers. -/
def filesListEs : List (Str × FTNode) → List (List File)
  | [] => []
  | (_, .null) :: rest => filesListEs rest
  | (_, .dict es2) :: rest => filesListEs es2 ++ filesListEs rest
  | (_, .files fs) :: rest => fs :: filesListEs rest

/-- Node stored at a path of interior keys, if the walk stays inside interior
dictionaries. -/
def nodeAt : List (Str × FTNode) → List Str → Option FTNode
  | _, [] => none
  | es, k :: rest =>
    match dictGet es k with
    | none => none
    | some v =>
      match rest with
      | [] => some v
      | _ :: _ =>
        match v with
        | .dict es2 => nodeAt es2 rest
        | _ => none

/-- Leaf file list stored at a path, if the node there is a leaf. -/
def leafAt (es : List (Str × FTNode)) (p : List Str) : Option (List File) :=
  match nodeAt es p with
  | some (.files fs) => some fs
  | _ => none

/-- Python truthiness of a node value (`if found:`). -/
def nodeTruthy : FTNode → Bool
  | .dict es => !es.isEmpty
  | .files fs => !fs.isEmpty
  | .null => false

/-- Skip condition `if parts and k != parts[0]: continue`. -/
def skipKey (parts : List Str) (k : Str) : Bool :=
  match parts with
  | [] => false
  | p :: _ => decide (k ≠ p)

/-- Python truthiness of the value returned by a recursive
`__get_prefixed` call (`if found:`): `None` is falsy, an empty dictionary or
list is falsy. -/
def foundTruthy : Option FTNode → Bool
  | some w => nodeTruthy w
  | none => false

/-- Translation of `FileTree.__get_prefixed` with `filter=True`: return the
detached node (if any) together with the mutated dictionary. -/
def getPrefixedAux : List Str → List (Str × FTNode) →
    Option FTNode × List (Str × FTNode)
  | _, [] => (none, [])
  | parts, (k, v) :: rest =>
    if skipKey parts k then
      let r := getPrefixedAux parts rest
      (r.1, (k, v) :: r.2)
    else if parts.tail.isEmpty && !v.isNull then
      (some v, (k, FTNode.null) :: rest)
    else
      match v with
      | .dict es2 =>
        let fe := getPrefixedAux parts.tail es2
        if foundTruthy fe.1 then (fe.1, (k, FTNode.dict fe.2) :: rest)
        else
          let r := getPrefixedAux parts rest
          (r.1, (k, FTNode.dict fe.2) :: r.2)
      | _ =>
        let r := getPrefixedAux parts rest
        (r.1, (k, v) :: r.2)

/-- The `FileTree` object: the raw dictionary plus the prefix parts it was
filtered to, and whether it is in common (multi-entity leaf) mode. -/
structure FileTree where
  tree : List (Str × FTNode)
  parts : List Str
  common : Bool

/-- Method form of `add_with_parts`. -/
def FileTree.add_with_parts (t : FileTree) (f : File) (parts : List Str) :
    Except PyErr FileTree := do
  let tr ← addWithParts t.common f t.tree parts
  pure { t with tree := tr }

/-- Translation of `FileTree.add`. -/
def FileTree.add (t : FileTree) (f : File) : Except PyErr FileTree :=
  t.add_with_parts f f.parts

/-- Translation of `FileTree.filter_prefixed`: destructively detach the
subtree matching the prefix, assert the detached node is a dictionary (or
nothing), and wrap it into a fresh `FileTree`.  The mutated receiver is
returned alongside the result. -/
def FileTree.filter_prefixed (t : FileTree) (parts : List Str) :
    Except PyErr FileTree × FileTree :=
  let (r, es2) := getPrefixedAux parts t.tree
  let self2 := { t with tree := es2 }
  match r with
  | some (.dict es) => (.ok ⟨es, parts, false⟩, self2)
  | some (.files _) => (.error .assertionError, self2)
  | some .null => (.ok ⟨[], parts, false⟩, self2)
  | none => (.ok ⟨[], parts, false⟩, self2)

/-- Iteration over a non-common `FileTree` (`__iter__` with
`__map_files_to_file`, which asserts one file per leaf). -/
def FileTree.iterFiles (t : FileTree) : Except PyErr (List File) :=
  (filesListEs t.tree).mapM (fun fs =>
    match fs with
    | [f] => pure f
    | _ => throw .assertionError)

/-- Insertion of the merged leaf files into the common tree, each under its
own parts with the shared prefix length stripped. -/
def addFilesCommon (n : Nat) (out : List (Str × FTNode)) (fs : List File) :
    Except PyErr (List (Str × FTNode)) :=
  fs.foldlM (fun acc f => addWithParts true f acc (f.parts.drop n)) out

/-- Translation of `CommonFileTree.__common_files`: lock-step walk over the
two dictionaries, recursing on interior nodes present in both, moving both
leaves into the output (and nulling them) when both sides hold leaves. -/
def commonFilesAux (n : Nat) :
    List (Str × FTNode) → List (Str × FTNode) → List (Str × FTNode) →
    Except PyErr
      (List (Str × FTNode) × List (Str × FTNode) × List (Str × FTNode))
  | out, [], b => pure (out, [], b)
  | out, (k, va) :: restA, b =>
    match dictGet b k with
    | none => do
      let (out2, restA2, b2) ← commonFilesAux n out restA b
      pure (out2, (k, va) :: restA2, b2)
    | some .null => do
      let (out2, restA2, b2) ← commonFilesAux n out restA b
      pure (out2, (k, va) :: restA2, b2)
    | some (.dict db) =>
      match va with
      | .dict da => do
        let (out2, da2, db2) ← commonFilesAux n out da db
        let (out3, restA2, b3) ←
          commonFilesAux n out2 restA (dictSet b k (.dict db2))
        pure (out3, (k, FTNode.dict da2) :: restA2, b3)
      | _ => throw .assertionError
    | some (.files fb) =>
      match va with
      | .files fa => do
        let out2 ← addFilesCommon n out (fa ++ fb)
        let (out3, restA2, b3) ←
          commonFilesAux n out2 restA (dictSet b k FTNode.null)
        pure (out3, (k, FTNode.null) :: restA2, b3)
      | _ => throw .assertionError

/-- Translation of `CommonFileTree.common_files`: assert equal prefix depth,
then run the lock-step walk starting from an empty common tree.  Returns the
common tree along with the two mutated inputs. -/
def CommonFileTree.common_files (a b : FileTree) :
    Except PyErr (FileTree × FileTree × FileTree) := do
  if a.parts.length ≠ b.parts.length then throw .assertionError
  let (out, a2, b2) ← commonFilesAux a.parts.length [] a.tree b.tree
  pure (⟨out, a.parts, true⟩, { a with tree := a2 }, { b with tree := b2 })

/-- The keyed-by-destination collection `SimpleFileList`: a Python dict from
`file.dst` to the file. -/
abbrev SimpleFileList := List (Str × File)

/-- Translation of `SimpleFileList.add`: plain dict assignment keyed by the
file's destination. -/
def sflAdd (l : SimpleFileList) (f : File) : SimpleFileList :=
  dictSet l f.dst f

/-- Iteration over a `SimpleFileList` (`self.__files.values()`). -/
def sflValues (l : SimpleFileList) : List File :=
  l.map (fun p => p.2)

/-- Translation of `SimpleFileList.get_file` (raises `KeyError` if absent,
modelled as `Option`). -/
def sflGet (l : SimpleFileList) (k : Str) : Option File :=
  dictGet l k

def MANIFEST_PARTS : List Str := ["etc".data, "vintf".data, "manifest".data]
def DEFAULT_PACKAGES_EXT : List Str := [".apk".data, ".jar".data, ".apex".data]
def LIB_PARTS : List Str := ["lib".data]
def LIB_RFSA_PARTS : List Str := ["lib".data, "rfsa".data]
def LIB64_PARTS : List Str := ["lib64".data]
def BIN_PARTS : List Str := ["bin".data]

/-- State of a `FileList`: the five collections plus the section filter and
the check-elf flag. -/
structure FileList where
  files : SimpleFileList
  pinned_files : SimpleFileList
  package_files : FileTree
  package_symlinks : SimpleFileList
  copy_files : SimpleFileList
  sect : Option Str
  check_elf : Bool

/-- A fresh `FileList` (`FileList.__init__`). -/
def FileList.init (sect : Option Str) (check_elf : Bool) : FileList :=
  ⟨[], [], ⟨[], [], false⟩, [], [], sect, check_elf⟩

/-- Translation of `FileList.__is_file_package`. -/
def FileList.is_file_package (fl : FileList) (f : File) : Bool :=
  if f.contains_path_parts MANIFEST_PARTS then true
  else if decide (f.ext ∈ DEFAULT_PACKAGES_EXT) then true
  else if !fl.check_elf then false
  else if f.ext = ".so".data
      && (f.contains_path_parts LIB_PARTS
          || f.contains_path_parts LIB64_PARTS) then true
  else if f.contains_path_parts BIN_PARTS
      || f.contains_path_parts LIB_RFSA_PARTS then true
  else false

/-- Warnings printed by `FileList.__add_file`. -/
inductive FLWarning where
  | alreadyPackage
deriving DecidableEq, Repr

/-- Translation of `FileList.__add_file`: route the file into the symlink,
section-filtered, package and copy collections, warning when an explicit `-`
marker is redundant with the package classification. -/
def FileList.add_file (fl : FileList) (f : File) (sec : Option Str) :
    Except PyErr (FileList × List FLWarning) := do
  let syl := if (dictGet f.args FileArgs.SYMLINK).isSome
             then sflAdd fl.package_symlinks f else fl.package_symlinks
  let (files2, pinned2) :=
    if fl.sect = none ∨ sec = fl.sect then
      (sflAdd fl.files f,
       if f.hash ≠ none then sflAdd fl.pinned_files f else fl.pinned_files)
    else (fl.files, fl.pinned_files)
  let isPkg := fl.is_file_package f
  let warns : List FLWarning :=
    if isPkg && f.is_package then [.alreadyPackage] else []
  let pkgTree ←
    if isPkg || f.is_package then fl.package_files.add f
    else pure fl.package_files
  let copy2 :=
    if !isPkg || (dictGet f.args FileArgs.MAKE_COPY_RULE).isSome
    then sflAdd fl.copy_files f else fl.copy_files
  pure ({ fl with files := files2, pinned_files := pinned2,
                  package_files := pkgTree, package_symlinks := syl,
                  copy_files := copy2 }, warns)

/-- The part of an `ExtractUtilsModule` the engine consults: the set of
destinations for which a blob fixup pipeline is configured. -/
structure Module where
  blobFixups : List Str

/-- Translation of `ExtractUtils.should_module_fixup_file`. -/
def should_module_fixup_file (m : Module) (f : File) : Bool :=
  (dictGet f.args FileArgs.FIX_XML).isSome
  || (dictGet f.args FileArgs.FIX_SONAME).isSome
  || decide (f.dst ∈ m.blobFixups)

/-- Oracle for the filesystem collaborators of one per-file run: whether the
backup restore and the source copy succeed, the content hash of the
materialized file in either case, and the content hash observed after the
fixup pipeline runs. -/
structure Env where
  restoreOk : Bool
  copyOk : Bool
  hashAfterRestore : Str
  hashAfterCopy : Str
  postFixupHash : Str

/-- Observable actions of a per-file reconciliation run, in order: copy
attempts, fixup pipeline invocations, and colored status prints. -/
inductive EngineAct where
  | tryRestore
  | tryCopy
  | runFixup
  | printRed
  | printYellow
  | printGreen
deriving DecidableEq, Repr

/-- Translation of `ExtractUtils.process_module_file` (the Simple policy). -/
def process_module_file (m : Module) (env : Env) (f : File) :
    Bool × List EngineAct :=
  if !env.copyOk then (false, [.tryCopy, .printRed])
  else if !should_module_fixup_file m f then (true, [.tryCopy])
  else
    let pre := env.hashAfterCopy
    let post := env.postFixupHash
    if pre = post then (true, [.tryCopy, .runFixup, .printYellow])
    else (true, [.tryCopy, .runFixup, .printGreen])

/-- Translation of `ExtractUtils.process_module_kanged_file` (the adopt
policy): pin the pre-fixup hash, record the post-fixup hash when a fixup
pipeline is configured, and warn when the fixup had no effect. -/
def process_module_kanged_file (m : Module) (env : Env) (f : File) :
    File × Bool × List EngineAct :=
  if !env.copyOk then (f, false, [.tryCopy, .printRed])
  else
    let pre := env.hashAfterCopy
    let (post, fixActs) : Option Str × List EngineAct :=
      if should_module_fixup_file m f then (some env.postFixupHash, [.runFixup])
      else (none, [])
    let f2 := (f.set_hash (some pre)).set_fixup_hash post
    if some pre = post then
      (f2, true, [EngineAct.tryCopy] ++ fixActs ++ [EngineAct.printYellow])
    else
      (f2, true, [EngineAct.tryCopy] ++ fixActs ++ [EngineAct.printGreen])

/-- Translation of `ExtractUtils.process_module_pinned_file` (the Pinned
policy): restore from backup first, fall back to the live source, then
compare the materialized hash against the pinned and fixup hashes. -/
def process_module_pinned_file (m : Module) (env : Env) (f : File) :
    Bool × List EngineAct :=
  if env.restoreOk ∨ env.copyOk then
    let restored := env.restoreOk
    let acts0 : List EngineAct :=
      if env.restoreOk then [.tryRestore] else [.tryRestore, .tryCopy]
    let pre := if restored then env.hashAfterRestore else env.hashAfterCopy
    match f.fixup_hash with
    | none =>
      if f.hash = some pre then (true, acts0 ++ [.printGreen])
      else (true, acts0 ++ [.printYellow])
    | some fh =>
      if fh = pre then (true, acts0 ++ [.printGreen])
      else if !should_module_fixup_file m f then (true, acts0 ++ [.printYellow])
      else if fh ≠ env.postFixupHash then
        (true, acts0 ++ [.runFixup, .printYellow])
      else (false, acts0 ++ [.runFixup, .printGreen])
  else (false, [.tryRestore, .tryCopy, .printRed])

/-- Translation of the per-file dispatch loop in
`ExtractUtils.process_module_files`, aggregating `all_copied`. -/
def process_module_files (m : Module) (kang : Bool)
    (inputs : List (File × Env)) : Bool × List EngineAct :=
  inputs.foldl (fun st fe =>
    let (copied, acts) :=
      if kang then
        let r := process_module_kanged_file m fe.2 fe.1
        (r.2.1, r.2.2)
      else if fe.1.hash ≠ none then process_module_pinned_file m fe.2 fe.1
      else process_module_file m fe.2 fe.1
    (st.1 && copied, st.2 ++ acts)) (true, [])

/-
  Specification-side predicates and well-formedness invariants used to state
  the claims.  The well-formedness predicates capture invariants that hold
  for every tree and file list reachable through the source's own API
  (Python dictionaries cannot hold duplicate keys, `add` never creates empty
  interior dictionaries or empty leaves).
-/

/-- Package classification as worded in the specification: a manifest path,
a build-artifact extension, or — only with ELF heuristics enabled — a shared
object under `lib`/`lib64`, or a file under `bin` or `lib/rfsa`. -/
def specIsPackage (check_elf : Bool) (f : File) : Prop :=
  MANIFEST_PARTS <:+: f.parts
  ∨ f.ext ∈ DEFAULT_PACKAGES_EXT
  ∨ (check_elf = true
     ∧ ((f.ext = ".so".data ∧ (LIB_PARTS <:+: f.parts ∨ LIB64_PARTS <:+: f.parts))
        ∨ BIN_PARTS <:+: f.parts
        ∨ LIB_RFSA_PARTS <:+: f.parts))

/-- Invariant of a `SimpleFileList`: it is a Python dict keyed by the stored
file's destination, so keys are unique and each key equals its file's
destination. -/
def sflWF (l : SimpleFileList) : Prop :=
  (∀ p ∈ l, p.1 = p.2.dst) ∧ (l.map Prod.fst).Nodup

mutual
/-- Unique keys at a dictionary node and in every nested dictionary. -/
def wfKeysNode : FTNode → Bool
  | .dict es => wfKeysEs es
  | .files _ => true
  | .null => true

/-- Unique keys at this level of a `file_tree_dict` and recursively below. -/
def wfKeysEs : List (Str × FTNode) → Bool
  | [] => true
  | (k, v) :: rest =>
    !(rest.map Prod.fst).contains k && wfKeysNode v && wfKeysEs rest
end

mutual
/-- Reachability invariant: interior dictionaries and leaf file lists are
never empty (`add_with_parts` always fills the node it creates). -/
def wfNENode : FTNode → Bool
  | .dict es => !es.isEmpty && wfNEEs es
  | .files fs => !fs.isEmpty
  | .null => true

/-- Nonemptiness invariant over the entries of one dictionary level. -/
def wfNEEs : List (Str × FTNode) → Bool
  | [] => true
  | (_, v) :: rest => wfNENode v && wfNEEs rest
end

mutual
/-- Parts-consistency of a tree filtered to a prefix of length `n`: every
file stored at relative node path `acc` has `f.parts.drop n = acc`, which is
what `__common_files` relies on when re-inserting with
`f.parts[len(parts):]`. -/
def wfPartsNode (n : Nat) (acc : List Str) : FTNode → Bool
  | .dict es => wfPartsEs n acc es
  | .files fs => fs.all (fun f => decide (f.parts.drop n = acc))
  | .null => true

/-- Parts-consistency over the entries of one dictionary level. -/
def wfPartsEs (n : Nat) (acc : List Str) : List (Str × FTNode) → Bool
  | [] => true
  | (k, v) :: rest => wfPartsNode n (acc ++ [k]) v && wfPartsEs n acc rest
end

mutual
/-- Structural size of a node, used for strong induction over trees. -/
def ftSize : FTNode → Nat
  | .dict es => 1 + esSize es
  | .files _ => 1
  | .null => 1

/-- Structural size of one dictionary level. -/
def esSize : List (Str × FTNode) → Nat
  | [] => 0
  | (_, v) :: rest => 1 + ftSize v + esSize rest
end

/-- Tokens that survive a directive round trip unchanged: nonempty, free of
separator characters and of stripped whitespace. -/
def tokOK (t : Str) : Prop :=
  t ≠ [] ∧ ∀ c ∈ t, isSep c = false ∧ pyIsSpace c = false

/-- Shape-correctness of one stored argument entry, together with the
token restrictions that make its rendering re-parsable. -/
def argEntryOK : FileArgs × ArgVal → Prop
  | (k, .vTrue) => argTypeOf k = ArgTy.flag
  | (k, .vStr s) => argTypeOf k = ArgTy.scalar ∧ tokOK s
  | (k, .vList items) =>
    argTypeOf k = ArgTy.listTy ∧ items ≠ [] ∧
      ∀ p ∈ items, p ≠ [] ∧ ∀ c ∈ p, isSep c = false ∧ pyIsSpace c = false ∧ c ≠ ','

/-- Canonical parsed directive: the form produced by rendering a `File`
whose fields satisfy the parser's own invariants, with every argument in a
single clause and an explicit destination differing from the source. -/
def CanonicalFile (f : File) : Prop :=
  tokOK f.src
  ∧ (f.is_package = false → f.src.head? ≠ some '-')
  ∧ (f.has_dst = true → tokOK f.dst ∧ f.dst ≠ f.src)
  ∧ (f.args.map Prod.fst).Nodup
  ∧ (∀ kv ∈ f.args, argEntryOK kv)
  ∧ (∀ h, f.hash = some h → tokOK h)
  ∧ (∀ h, f.fixup_hash = some h → tokOK h ∧ f.hash ≠ none)

/-- Clause list of a rendered directive: the destination clause, one clause
per argument, and the hash clauses, in rendering order. -/
def fileClauses (f : File) : List (Char × Str) :=
  (if f.has_dst then [(':', f.dst)] else [])
  ++ f.args.map (fun kv => (';', argName kv.1 ++ renderVal kv.2))
  ++ (match f.hash with | some h => [('|', h)] | none => [])
  ++ (match f.fixup_hash with | some h => [('|', h)] | none => [])

/-- Concatenation of rendered clauses back into the directive tail. -/
def flattenClauses (cl : List (Char × Str)) : Str :=
  (cl.map (fun p => p.1 :: p.2)).flatten

-- Concrete fixtures used by counterexamples and witnesses.

/-- A plain file record with the given destination and hashes, as the
reconciliation engine receives it. -/
def plainFile (dst : Str) (h fh : Option Str) : File :=
  { is_package := false, src := dst, dst := dst, has_dst := false,
    args := [], hash := h, fixup_hash := fh,
    parts := splitOnChar '/' dst,
    partition := (splitOnChar '/' dst).headD [],
    basename := (splitOnChar '/' dst).getLastD [],
    dirname := [], root := [], ext := [] }

/-- An APK file carrying an explicit `-` package marker, as parsed from the
directive `-a/b.apk`. -/
def apkFile : File :=
  { is_package := true, src := "a/b.apk".data, dst := "a/b.apk".data,
    has_dst := false, args := [], hash := none, fixup_hash := none,
    parts := ["a".data, "b.apk".data], partition := "a".data,
    basename := "b.apk".data, dirname := "a".data, root := "b".data,
    ext := ".apk".data }

/-- Induction invariant for `CommonFileTree.__common_files`: merged leaves
land in the output under the accumulated path, matched leaves are nulled in
both inputs, one-sided leaves survive unchanged, the output changes only
under keys of the first input, the second input changes only at keys of the
first, everything in the output is either old or a matched merge, and the
second input keeps its well-formedness and key list. -/
abbrev cfaPost (n : Nat) (acc : List Str)
    (out a b out2 a2 b2 : List (Str × FTNode)) : Prop :=
  (∀ π fa fb, leafAt a π = some fa → leafAt b π = some fb →
      leafAt out2 (acc ++ π)
        = some ((leafAt out (acc ++ π)).getD [] ++ (fa ++ fb))
      ∧ nodeAt a2 π = some FTNode.null ∧ nodeAt b2 π = some FTNode.null)
  ∧ (∀ π fa, leafAt a π = some fa → leafAt b π = none →
      leafAt a2 π = some fa)
  ∧ (∀ π fb, leafAt a π = none → leafAt b π = some fb →
      leafAt b2 π = some fb)
  ∧ (∀ ρ, (∀ k ∈ a.map Prod.fst, ∀ σ, ρ ≠ acc ++ k :: σ) →
      leafAt out2 ρ = leafAt out ρ)
  ∧ (∀ y, y ∉ a.map Prod.fst → ∀ ρ, nodeAt b2 (y :: ρ) = nodeAt b (y :: ρ))
  ∧ (∀ ρ, (leafAt out2 ρ).isSome = true →
      (leafAt out ρ).isSome = true ∨
      ∃ π fa fb, leafAt a π = some fa ∧ leafAt b π = some fb ∧ ρ = acc ++ π)
  ∧ wfKeysEs b2 = true ∧ wfNEEs b2 = true ∧ wfPartsEs n acc b2 = true
  ∧ b2.map Prod.fst = b.map Prod.fst

/-- Fixture for the common-files walk: the file `vendor/x` present in both
trees (with a pinned hash on the second copy) and `vendor/y` only in the
second tree. -/
def c5f1 : File := plainFile "vendor/x".data none none

/-- Second copy of `vendor/x`, held by the second tree. -/
def c5f2 : File := plainFile "vendor/x".data (some "aa".data) none

/-- The one-sided file `vendor/y`, held only by the second tree. -/
def c5f3 : File := plainFile "vendor/y".data none none

/-- A canonical parsed directive used to witness the round trip: package
marker, distinct explicit destination, one scalar argument and a pinned
hash. -/
def apkCanonical : File :=
  { is_package := true, src := "a/b.apk".data, dst := "v/b.apk".data,
    has_dst := true, args := [(FileArgs.MODULE, ArgVal.vStr "m".data)],
    hash := some "aa".data, fixup_hash := none,
    parts := [], partition := [], basename := [], dirname := [],
    root := [], ext := [] }

/-- First input tree, filtered to the prefix `vendor`. -/
def c5A : FileTree :=
  ⟨[("x".data, FTNode.files [c5f1])], ["vendor".data], false⟩

/-- Second input tree, filtered to the prefix `vendor`. -/
def c5B : FileTree :=
  ⟨[("x".data, FTNode.files [c5f2]), ("y".data, FTNode.files [c5f3])],
    ["vendor".data], false⟩

/-
  Helper lemmas.
-/

theorem dictSet_dictSet {α β : Type} [DecidableEq α]
    (l : List (α × β)) (k : α) (v1 v2 : β) :
    dictSet (dictSet l k v1) k v2 = dictSet l k v2 := by
  induction l with
  | nil => simp [dictSet]
  | cons p rest ih =>
    obtain ⟨k0, v0⟩ := p
    by_cases h : k0 = k
    · subst h
      simp [dictSet]
    · simp [dictSet, h, ih]

theorem dictGet_dictSet_self {α β : Type} [DecidableEq α]
    (l : List (α × β)) (k : α) (v : β) :
    dictGet (dictSet l k v) k = some v := by
  induction l with
  | nil => simp [dictSet, dictGet, List.find?]
  | cons p rest ih =>
    obtain ⟨k0, v0⟩ := p
    by_cases h : k0 = k
    · subst h
      simp [dictSet, dictGet, List.find?]
    · simp only [dictSet, if_neg h]
      simpa [dictGet, List.find?, h] using ih

theorem except_bind_ok {ε α β : Type} (a : α) (g : α → Except ε β) :
    (Except.ok a : Except ε α) >>= g = g a := rfl

theorem except_bind_error {ε α β : Type} (e : ε) (g : α → Except ε β) :
    (Except.error e : Except ε α) >>= g = Except.error e := rfl

theorem except_pure_eq_ok {ε α : Type} (a : α) :
    (pure a : Except ε α) = Except.ok a := rfl

theorem countP_values_eq_zero {α β : Type} [DecidableEq α]
    (p : β → Bool) (l : List (α × β)) (k : α)
    (hkey : ∀ q ∈ l, p q.2 = true → q.1 = k)
    (hnot : k ∉ l.map Prod.fst) :
    (l.map Prod.snd).countP p = 0 := by
  induction l with
  | nil => simp
  | cons q rest ih =>
    simp only [List.map_cons, List.countP_cons]
    have h1 : p q.2 = false := by
      cases hb : p q.2 with
      | false => rfl
      | true =>
        exact absurd (by simp [← hkey q (by simp) hb]) hnot
    rw [h1]
    simp only [if_neg (by simp : ¬ (false = true)), Nat.add_zero]
    exact ih (fun q hq hb => hkey q (by simp [hq]) hb)
      (fun hc => hnot (by simp at hc ⊢; tauto))

theorem contains_path_parts_iff (f : File) (pp : List Str) :
    f.contains_path_parts pp = true ↔ pp <:+: f.parts := by
  unfold File.contains_path_parts
  rw [List.any_eq_true]
  constructor
  · rintro ⟨i, _, hdec⟩
    rw [decide_eq_true_eq] at hdec
    refine ⟨f.parts.take i, f.parts.drop (i + pp.length), ?_⟩
    have hdd : f.parts.drop (i + pp.length)
        = (f.parts.drop i).drop pp.length := by
      rw [List.drop_drop, Nat.add_comm]
    have key : pp ++ (f.parts.drop i).drop pp.length = f.parts.drop i := by
      conv_rhs => rw [← List.take_append_drop pp.length (f.parts.drop i)]
      rw [hdec]
    conv_rhs => rw [← List.take_append_drop i f.parts]
    rw [List.append_assoc, hdd, key]
  · rintro ⟨s, t, hst⟩
    refine ⟨s.length, ?_, ?_⟩
    · rw [List.mem_range]
      have hlen : f.parts.length = s.length + pp.length + t.length := by
        rw [← hst]
        simp
        omega
      omega
    · rw [decide_eq_true_eq, ← hst, List.append_assoc, List.drop_left,
        List.take_left]

theorem leafAt_single (es : List (Str × FTNode)) (x : Str) :
    leafAt es [x]
      = match dictGet es x with
        | some (.files fs) => some fs
        | _ => none := by
  simp only [leafAt, nodeAt]
  cases dictGet es x with
  | none => rfl
  | some v => cases v <;> rfl

theorem leafAt_cons (es : List (Str × FTNode)) (x y : Str) (rest : List Str) :
    leafAt es (x :: y :: rest)
      = match dictGet es x with
        | some (.dict sub) => leafAt sub (y :: rest)
        | _ => none := by
  simp only [leafAt, nodeAt]
  cases dictGet es x with
  | none => rfl
  | some v => cases v <;> rfl

theorem addWithParts_ok_leafAt (cm : Bool) (f : File) :
    ∀ (p : List Str) (es es2 : List (Str × FTNode)),
    addWithParts cm f es p = Except.ok es2 →
    leafAt es2 p = some ((leafAt es p).getD [] ++ [f]) := by
  intro p
  induction p with
  | nil => intro es es2 hadd; simp [addWithParts] at hadd
  | cons x rest ih =>
    intro es es2 hadd
    cases rest with
    | nil =>
      simp only [addWithParts, setdefaultNode] at hadd
      cases hg : dictGet es x with
      | none =>
        rw [hg] at hadd
        simp only [List.isEmpty_nil, Bool.not_true, Bool.and_false,
          Bool.false_eq_true, if_false] at hadd
        cases hadd
        simp [leafAt_single, dictGet_dictSet_self, hg]
      | some v =>
        rw [hg] at hadd
        cases v with
        | dict sub => simp at hadd
        | null => simp at hadd
        | files fs =>
          simp only at hadd
          split_ifs at hadd with hdup
          all_goals cases hadd
          all_goals simp [leafAt_single, dictGet_dictSet_self, hg]
    | cons y rest2 =>
      simp only [addWithParts, setdefaultNode] at hadd
      cases hg : dictGet es x with
      | none =>
        rw [hg] at hadd
        simp only at hadd
        cases hin : addWithParts cm f [] (y :: rest2) with
        | error e => rw [hin] at hadd; cases hadd
        | ok sub2 =>
          rw [hin, except_bind_ok] at hadd
          cases hadd
          simp only [leafAt_cons, dictGet_dictSet_self, hg]
          rw [ih [] sub2 hin]
          rfl
      | some v =>
        rw [hg] at hadd
        cases v with
        | null => simp at hadd
        | files fs => simp at hadd
        | dict sub =>
          simp only at hadd
          cases hin : addWithParts cm f sub (y :: rest2) with
          | error e => rw [hin] at hadd; cases hadd
          | ok sub2 =>
            rw [hin, except_bind_ok] at hadd
            cases hadd
            simp only [leafAt_cons, dictGet_dictSet_self]
            rw [ih _ _ hin]
            simp [leafAt_cons, hg]

theorem addWithParts_dup_error (f : File) :
    ∀ (p : List Str) (es : List (Str × FTNode)) (fs : List File),
    leafAt es p = some fs → fs ≠ [] →
    addWithParts false f es p = Except.error PyErr.valueError := by
  intro p
  induction p with
  | nil => intro es fs hleaf _; simp [leafAt, nodeAt] at hleaf
  | cons x rest ih =>
    intro es fs hleaf hne
    cases rest with
    | nil =>
      rw [leafAt_single] at hleaf
      cases hg : dictGet es x with
      | none => rw [hg] at hleaf; cases hleaf
      | some v =>
        rw [hg] at hleaf
        cases v with
        | dict sub => cases hleaf
        | null => cases hleaf
        | files fs2 =>
          simp only [Option.some.injEq] at hleaf
          subst hleaf
          have hie : fs2.isEmpty = false := by
            cases fs2 with
            | nil => exact absurd rfl hne
            | cons a b => rfl
          simp [addWithParts, setdefaultNode, hg, hie]
          rfl
    | cons y rest2 =>
      rw [leafAt_cons] at hleaf
      cases hg : dictGet es x with
      | none => rw [hg] at hleaf; cases hleaf
      | some v =>
        rw [hg] at hleaf
        cases v with
        | null => cases hleaf
        | files fs2 => cases hleaf
        | dict sub =>
          simp only [addWithParts, setdefaultNode, hg]
          rw [ih sub fs hleaf hne, except_bind_error]

theorem addWithParts_common_ok (f : File) :
    ∀ (p : List Str) (es : List (Str × FTNode)) (fs : List File),
    leafAt es p = some fs →
    ∃ es2, addWithParts true f es p = Except.ok es2
      ∧ leafAt es2 p = some (fs ++ [f]) := by
  intro p
  induction p with
  | nil => intro es fs hleaf; simp [leafAt, nodeAt] at hleaf
  | cons x rest ih =>
    intro es fs hleaf
    cases rest with
    | nil =>
      rw [leafAt_single] at hleaf
      cases hg : dictGet es x with
      | none => rw [hg] at hleaf; cases hleaf
      | some v =>
        rw [hg] at hleaf
        cases v with
        | dict sub => cases hleaf
        | null => cases hleaf
        | files fs2 =>
          simp only [Option.some.injEq] at hleaf
          subst hleaf
          refine ⟨dictSet es x (.files (fs2 ++ [f])), ?_, ?_⟩
          · simp [addWithParts, setdefaultNode, hg]
            rfl
          · simp [leafAt_single, dictGet_dictSet_self]
    | cons y rest2 =>
      rw [leafAt_cons] at hleaf
      cases hg : dictGet es x with
      | none => rw [hg] at hleaf; cases hleaf
      | some v =>
        rw [hg] at hleaf
        cases v with
        | null => cases hleaf
        | files fs2 => cases hleaf
        | dict sub =>
          obtain ⟨sub2, hok, hleaf2⟩ := ih sub fs hleaf
          refine ⟨dictSet es x (.dict sub2), ?_, ?_⟩
          · simp only [addWithParts, setdefaultNode, hg]
            rw [hok, except_bind_ok, except_pure_eq_ok]
          · simp only [leafAt_cons, dictGet_dictSet_self]
            exact hleaf2

theorem dictGet_cons {α β : Type} [DecidableEq α]
    (k : α) (v : β) (rest : List (α × β)) (x : α) :
    dictGet ((k, v) :: rest) x = if k = x then some v else dictGet rest x := by
  by_cases h : k = x
  · subst h
    simp [dictGet, List.find?]
  · simp [dictGet, List.find?, h]

theorem dictGet_wfNE (es : List (Str × FTNode)) (x : Str) (v : FTNode)
    (hg : dictGet es x = some v) (hn : wfNEEs es = true) :
    wfNENode v = true := by
  induction es with
  | nil => simp [dictGet] at hg
  | cons q rest ih =>
    obtain ⟨k, v0⟩ := q
    rw [dictGet_cons] at hg
    simp only [wfNEEs, Bool.and_eq_true] at hn
    split_ifs at hg with h
    · cases hg
      exact hn.1
    · exact ih hg hn.2

theorem wfNE_nodeAt (p : List Str) :
    ∀ (es : List (Str × FTNode)) (w : FTNode),
    nodeAt es p = some w → wfNEEs es = true → wfNENode w = true := by
  induction p with
  | nil => intro es w h; simp [nodeAt] at h
  | cons x p2 ih =>
    intro es w h hn
    simp only [nodeAt] at h
    cases hg : dictGet es x with
    | none => rw [hg] at h; cases h
    | some v =>
      rw [hg] at h
      have hv := dictGet_wfNE es x v hg hn
      cases p2 with
      | nil =>
        simp only [Option.some.injEq] at h
        subst h
        exact hv
      | cons y p3 =>
        cases v with
        | dict sub =>
          simp only [wfNENode, Bool.and_eq_true] at hv
          exact ih sub w h hv.2
        | files fs => cases h
        | null => cases h

theorem dictGet_wfKeys (es : List (Str × FTNode)) (x : Str) (v : FTNode)
    (hg : dictGet es x = some v) (hk : wfKeysEs es = true) :
    wfKeysNode v = true := by
  induction es with
  | nil => simp [dictGet] at hg
  | cons q rest ih =>
    obtain ⟨k, v0⟩ := q
    rw [dictGet_cons] at hg
    simp only [wfKeysEs, Bool.and_eq_true] at hk
    split_ifs at hg with h
    · cases hg
      exact hk.1.2
    · exact ih hg hk.2

theorem nodeAt_append_match (ρ : List Str) (hρ : ρ ≠ []) :
    ∀ (p : List Str) (es : List (Str × FTNode)), p ≠ [] →
    nodeAt es (p ++ ρ)
      = (match nodeAt es p with
         | some (.dict sub) => nodeAt sub ρ
         | _ => none) := by
  intro p
  induction p with
  | nil => intro es h; exact absurd rfl h
  | cons x p2 ih =>
    intro es _
    simp only [List.cons_append, nodeAt]
    cases hg : dictGet es x with
    | none =>
      cases hρ2 : p2 ++ ρ with
      | nil => simp at hρ2; exact absurd hρ2.2 hρ
      | cons a b => rfl
    | some v =>
      cases p2 with
      | nil =>
        simp only [List.nil_append]
        cases v with
        | dict sub =>
          cases ρ with
          | nil => exact absurd rfl hρ
          | cons r1 r2 => rfl
        | files fs =>
          cases ρ with
          | nil => exact absurd rfl hρ
          | cons r1 r2 => rfl
        | null =>
          cases ρ with
          | nil => exact absurd rfl hρ
          | cons r1 r2 => rfl
      | cons y p3 =>
        simp only [List.cons_append]
        cases v with
        | dict sub => exact ih sub (by simp)
        | files fs => rfl
        | null => rfl

theorem leafAt_of_null (p : List Str) (hp : p ≠ [])
    (es : List (Str × FTNode)) (h : nodeAt es p = some FTNode.null)
    (ρ : List Str) : leafAt es (p ++ ρ) = none := by
  cases ρ with
  | nil =>
    rw [List.append_nil, leafAt, h]
  | cons r1 r2 =>
    rw [leafAt, nodeAt_append_match (r1 :: r2) (by simp) p es hp, h]

theorem gp_no_key (x : Str) (p2 : List Str) :
    ∀ (es : List (Str × FTNode)),
    (∀ q ∈ es, q.1 ≠ x) →
    getPrefixedAux (x :: p2) es = (none, es) := by
  intro es
  induction es with
  | nil => intro _; simp [getPrefixedAux]
  | cons q rest ih =>
    obtain ⟨k, v⟩ := q
    intro hk
    have hkx : k ≠ x := hk (k, v) (by simp)
    have hskip : skipKey (x :: p2) k = true := by simp [skipKey, hkx]
    unfold getPrefixedAux
    rw [if_pos hskip, ih (fun q hq => hk q (by simp [hq]))]

theorem leafAt_nil (es : List (Str × FTNode)) : leafAt es [] = none := rfl

theorem nodeAt_cons_ne (k : Str) (v : FTNode) (rest : List (Str × FTNode))
    (y : Str) (ρ : List Str) (h : ¬ k = y) :
    nodeAt ((k, v) :: rest) (y :: ρ) = nodeAt rest (y :: ρ) := by
  simp only [nodeAt, dictGet_cons, if_neg h]

theorem leafAt_cons_ne (k : Str) (v : FTNode) (rest : List (Str × FTNode))
    (y : Str) (ρ : List Str) (h : ¬ k = y) :
    leafAt ((k, v) :: rest) (y :: ρ) = leafAt rest (y :: ρ) := by
  simp only [leafAt, nodeAt_cons_ne k v rest y ρ h]

theorem nodeAt_cons_self_nil (k : Str) (v : FTNode)
    (rest : List (Str × FTNode)) :
    nodeAt ((k, v) :: rest) [k] = some v := by
  simp [nodeAt, dictGet_cons]

theorem nodeAt_cons_self_cons (k : Str) (v : FTNode)
    (rest : List (Str × FTNode)) (y : Str) (p3 : List Str) :
    nodeAt ((k, v) :: rest) (k :: y :: p3)
      = (match v with
         | FTNode.dict sub => nodeAt sub (y :: p3)
         | _ => none) := by
  rw [show nodeAt ((k, v) :: rest) (k :: y :: p3)
      = (match dictGet ((k, v) :: rest) k with
         | none => none
         | some w =>
           match w with
           | FTNode.dict es2 => nodeAt es2 (y :: p3)
           | _ => none) from rfl]
  rw [dictGet_cons, if_pos rfl]

theorem leafAt_cons_same (k : Str) (v : FTNode)
    (rest rest2 : List (Str × FTNode)) (ρ : List Str) :
    leafAt ((k, v) :: rest) (k :: ρ) = leafAt ((k, v) :: rest2) (k :: ρ) := by
  cases ρ with
  | nil => simp only [leafAt, nodeAt_cons_self_nil]
  | cons y ρ2 => simp only [leafAt, nodeAt_cons_self_cons]

theorem leafAt_cons_dict (k : Str) (sub : List (Str × FTNode))
    (rest : List (Str × FTNode)) (w : Str) (ρ3 : List Str) :
    leafAt ((k, FTNode.dict sub) :: rest) (k :: w :: ρ3)
      = leafAt sub (w :: ρ3) := by
  simp only [leafAt, nodeAt_cons_self_cons]

theorem gp_found :
    ∀ (N : Nat) (es : List (Str × FTNode)) (p : List Str) (v : FTNode),
    esSize es ≤ N →
    wfKeysEs es = true → wfNEEs es = true → p ≠ [] →
    nodeAt es p = some v → v ≠ FTNode.null →
    ∃ es2, getPrefixedAux p es = (some v, es2)
      ∧ nodeAt es2 p = some FTNode.null
      ∧ ∀ ρ, ¬ p <+: ρ → leafAt es2 ρ = leafAt es ρ := by
  intro N
  induction N with
  | zero =>
    intro es p v hsz hk hn hp hnode hv
    cases es with
    | nil =>
      cases p with
      | nil => exact absurd rfl hp
      | cons x p2 => simp [nodeAt, dictGet] at hnode
    | cons q rest =>
      obtain ⟨k, v0⟩ := q
      simp [esSize] at hsz
  | succ N ihN =>
    intro es p v hsz hk hn hp hnode hv
    cases p with
    | nil => exact absurd rfl hp
    | cons x p2 =>
    cases es with
    | nil => simp [nodeAt, dictGet] at hnode
    | cons q rest =>
      obtain ⟨k, v0⟩ := q
      have hszrest : esSize rest ≤ N := by
        simp [esSize] at hsz
        omega
      simp only [wfKeysEs, Bool.and_eq_true] at hk
      simp only [wfNEEs, Bool.and_eq_true] at hn
      simp only [nodeAt] at hnode
      rw [dictGet_cons] at hnode
      by_cases hkx : k = x
      · subst hkx
        rw [if_pos rfl] at hnode
        cases p2 with
        | nil =>
          simp only [Option.some.injEq] at hnode
          subst hnode
          have hnotnull : v0.isNull = false := by
            cases v0 with
            | null => exact absurd rfl hv
            | dict es2 => rfl
            | files fs => rfl
          refine ⟨(k, FTNode.null) :: rest, ?_, ?_, ?_⟩
          · unfold getPrefixedAux
            rw [if_neg (by simp [skipKey]),
              if_pos (by simp [hnotnull])]
          · exact nodeAt_cons_self_nil k FTNode.null rest
          · intro ρ hρ
            cases ρ with
            | nil => rw [leafAt_nil, leafAt_nil]
            | cons y ρ2 =>
              by_cases hyk : k = y
              · subst hyk
                exact absurd ⟨ρ2, rfl⟩ hρ
              · rw [leafAt_cons_ne _ _ _ _ _ hyk,
                  leafAt_cons_ne _ _ _ _ _ hyk]
        | cons y p3 =>
          cases v0 with
          | files fs => cases hnode
          | null => cases hnode
          | dict sub =>
            have hszsub : esSize sub ≤ N := by
              simp [esSize, ftSize] at hsz
              omega
            have hksub : wfKeysEs sub = true := by
              simpa [wfKeysNode] using hk.1.2
            have hnsub : wfNEEs sub = true := by
              have := hn.1
              simp only [wfNENode, Bool.and_eq_true] at this
              exact this.2
            obtain ⟨es3, hrec, hnull3, hframe3⟩ :=
              ihN sub (y :: p3) v hszsub hksub hnsub (by simp) hnode hv
            have htruthy : nodeTruthy v = true := by
              have hwf := wfNE_nodeAt (y :: p3) sub v hnode hnsub
              cases v with
              | null => exact absurd rfl hv
              | dict dv =>
                simp only [wfNENode, Bool.and_eq_true] at hwf
                simpa [nodeTruthy] using hwf.1
              | files fs => simpa [nodeTruthy, wfNENode] using hwf
            refine ⟨(k, FTNode.dict es3) :: rest, ?_, ?_, ?_⟩
            · unfold getPrefixedAux
              rw [if_neg (by simp [skipKey])]
              rw [if_neg (by simp)]
              simp only [List.tail_cons, hrec, foundTruthy, htruthy,
                if_true]
            · rw [nodeAt_cons_self_cons]
              exact hnull3
            · intro ρ hρ
              cases ρ with
              | nil => rw [leafAt_nil, leafAt_nil]
              | cons z ρ2 =>
                by_cases hzk : k = z
                · subst hzk
                  cases ρ2 with
                  | nil =>
                    simp only [leafAt, nodeAt_cons_self_nil]
                  | cons w ρ3 =>
                    have hρ2 : ¬ (y :: p3) <+: (w :: ρ3) := by
                      intro ⟨tl, htl⟩
                      exact hρ ⟨tl, by simp [htl]⟩
                    rw [leafAt_cons_dict, leafAt_cons_dict]
                    exact hframe3 (w :: ρ3) hρ2
                · rw [leafAt_cons_ne _ _ _ _ _ hzk,
                    leafAt_cons_ne _ _ _ _ _ hzk]
      · rw [if_neg hkx] at hnode
        obtain ⟨rest2, hrec, hnull2, hframe2⟩ :=
          ihN rest (x :: p2) v hszrest hk.2 hn.2 (by simp) hnode hv
        refine ⟨(k, v0) :: rest2, ?_, ?_, ?_⟩
        · unfold getPrefixedAux
          rw [if_pos (by simp [skipKey, hkx]), hrec]
        · rw [nodeAt_cons_ne _ _ _ _ _ hkx]
          exact hnull2
        · intro ρ hρ
          cases ρ with
          | nil => rw [leafAt_nil, leafAt_nil]
          | cons y ρ2 =>
            by_cases hyk : k = y
            · subst hyk
              exact leafAt_cons_same k v0 rest2 rest ρ2
            · rw [leafAt_cons_ne _ _ _ _ _ hyk,
                leafAt_cons_ne _ _ _ _ _ hyk]
              exact hframe2 (y :: ρ2) hρ

theorem gp_no_match :
    ∀ (N : Nat) (es : List (Str × FTNode)) (p : List Str),
    esSize es ≤ N →
    wfKeysEs es = true → wfNEEs es = true → p ≠ [] →
    (nodeAt es p = none ∨ nodeAt es p = some FTNode.null) →
    getPrefixedAux p es = (none, es) := by
  intro N
  induction N with
  | zero =>
    intro es p hsz hk hn hp hnode
    cases es with
    | nil => unfold getPrefixedAux; rfl
    | cons q rest =>
      obtain ⟨k, v0⟩ := q
      simp [esSize] at hsz
  | succ N ihN =>
    intro es p hsz hk hn hp hnode
    cases p with
    | nil => exact absurd rfl hp
    | cons x p2 =>
    cases es with
    | nil => unfold getPrefixedAux; rfl
    | cons q rest =>
      obtain ⟨k, v0⟩ := q
      have hszrest : esSize rest ≤ N := by
        simp [esSize] at hsz
        omega
      simp only [wfKeysEs, Bool.and_eq_true] at hk
      simp only [wfNEEs, Bool.and_eq_true] at hn
      by_cases hkx : k = x
      · subst hkx
        have hnokey : ∀ q ∈ rest, q.1 ≠ k := by
          intro q hq heq
          have hmem : k ∈ rest.map Prod.fst :=
            List.mem_map.mpr ⟨q, hq, heq⟩
          exact absurd hmem (by simpa using hk.1.1)
        have hrest := gp_no_key k p2 rest hnokey
        cases p2 with
        | nil =>
          rw [nodeAt_cons_self_nil] at hnode
          have hv0 : v0 = FTNode.null := by
            rcases hnode with h | h
            · cases h
            · simpa using h
          subst hv0
          unfold getPrefixedAux
          rw [if_neg (by simp [skipKey]), if_neg (by simp [FTNode.isNull])]
          show (let r := getPrefixedAux [k] rest
                (r.1, (k, FTNode.null) :: r.2))
            = (none, (k, FTNode.null) :: rest)
          rw [hrest]
        | cons y p3 =>
          rw [nodeAt_cons_self_cons] at hnode
          cases v0 with
          | null =>
            unfold getPrefixedAux
            rw [if_neg (by simp [skipKey]), if_neg (by simp [FTNode.isNull])]
            show (let r := getPrefixedAux (k :: y :: p3) rest
                  (r.1, (k, FTNode.null) :: r.2))
              = (none, (k, FTNode.null) :: rest)
            rw [hrest]
          | files fs =>
            unfold getPrefixedAux
            rw [if_neg (by simp [skipKey]), if_neg (by simp)]
            show (let r := getPrefixedAux (k :: y :: p3) rest
                  (r.1, (k, FTNode.files fs) :: r.2))
              = (none, (k, FTNode.files fs) :: rest)
            rw [hrest]
          | dict sub =>
            have hszsub : esSize sub ≤ N := by
              simp [esSize, ftSize] at hsz
              omega
            have hksub : wfKeysEs sub = true := by
              simpa [wfKeysNode] using hk.1.2
            have hnsub : wfNEEs sub = true := by
              have := hn.1
              simp only [wfNENode, Bool.and_eq_true] at this
              exact this.2
            have hnode2 : nodeAt sub (y :: p3) = none
                ∨ nodeAt sub (y :: p3) = some FTNode.null := hnode
            have hrecsub := ihN sub (y :: p3) hszsub hksub hnsub
              (by simp) hnode2
            unfold getPrefixedAux
            rw [if_neg (by simp [skipKey]), if_neg (by simp)]
            show (let fe := getPrefixedAux (y :: p3) sub
                  if foundTruthy fe.1 then
                    (fe.1, (k, FTNode.dict fe.2) :: rest)
                  else
                    let r := getPrefixedAux (k :: y :: p3) rest
                    (r.1, (k, FTNode.dict fe.2) :: r.2))
              = (none, (k, FTNode.dict sub) :: rest)
            rw [hrecsub, hrest]
            rfl
      · rw [nodeAt_cons_ne _ _ _ _ _ hkx] at hnode
        have hrest := ihN rest (x :: p2) hszrest hk.2 hn.2 (by simp) hnode
        unfold getPrefixedAux
        rw [if_pos (by simp [skipKey, hkx]), hrest]

theorem dictGet_dictSet_ne {α β : Type} [DecidableEq α]
    (l : List (α × β)) (k y : α) (v : β) (h : ¬ k = y) :
    dictGet (dictSet l k v) y = dictGet l y := by
  induction l with
  | nil =>
    simp only [dictSet]
    rw [dictGet_cons, if_neg h]
  | cons q rest ih =>
    obtain ⟨k0, v0⟩ := q
    by_cases h0 : k0 = k
    · subst h0
      simp only [dictSet, if_pos rfl, eq_self_iff_true, if_true]
      rw [dictGet_cons, dictGet_cons, if_neg h, if_neg h]
    · simp only [dictSet, if_neg h0]
      rw [dictGet_cons, dictGet_cons]
      by_cases h1 : k0 = y
      · rw [if_pos h1, if_pos h1]
      · rw [if_neg h1, if_neg h1, ih]

theorem dictGet_eq_none_of_not_mem {α β : Type} [DecidableEq α]
    (l : List (α × β)) (y : α) (h : y ∉ l.map Prod.fst) :
    dictGet l y = none := by
  induction l with
  | nil => rfl
  | cons q rest ih =>
    obtain ⟨k0, v0⟩ := q
    rw [dictGet_cons, if_neg (by simp at h; exact fun hc => h.1 hc.symm)]
    exact ih (by simp at h ⊢; exact h.2)

theorem leafAt_congr (es es2 : List (Str × FTNode)) (π : List Str)
    (h : nodeAt es π = nodeAt es2 π) : leafAt es π = leafAt es2 π := by
  unfold leafAt
  rw [h]

theorem leafAt_eq_none_of_not_mem (es : List (Str × FTNode)) (y : Str)
    (ρ : List Str) (h : y ∉ es.map Prod.fst) :
    leafAt es (y :: ρ) = none := by
  unfold leafAt
  rw [show nodeAt es (y :: ρ)
      = (match dictGet es y with
         | none => none
         | some v =>
           match ρ with
           | [] => some v
           | _ :: _ =>
             match v with
             | FTNode.dict es2 => nodeAt es2 ρ
             | _ => none) from by cases ρ <;> rfl]
  rw [dictGet_eq_none_of_not_mem es y h]

theorem nodeAt_dictSet_self_nil {l : List (Str × FTNode)} (k : Str)
    (v : FTNode) : nodeAt (dictSet l k v) [k] = some v := by
  rw [show nodeAt (dictSet l k v) [k]
      = (match dictGet (dictSet l k v) k with
         | none => none
         | some w => some w) from rfl]
  rw [dictGet_dictSet_self]

theorem nodeAt_dictSet_self_cons {l : List (Str × FTNode)} (k : Str)
    (v : FTNode) (y : Str) (ρ : List Str) :
    nodeAt (dictSet l k v) (k :: y :: ρ)
      = (match v with
         | FTNode.dict sub => nodeAt sub (y :: ρ)
         | _ => none) := by
  rw [show nodeAt (dictSet l k v) (k :: y :: ρ)
      = (match dictGet (dictSet l k v) k with
         | none => none
         | some w =>
           match w with
           | FTNode.dict es2 => nodeAt es2 (y :: ρ)
           | _ => none) from rfl]
  rw [dictGet_dictSet_self]

theorem nodeAt_dictSet_ne {l : List (Str × FTNode)} (k : Str) (v : FTNode)
    (y : Str) (ρ : List Str) (h : ¬ k = y) :
    nodeAt (dictSet l k v) (y :: ρ) = nodeAt l (y :: ρ) := by
  rw [show ∀ (m : List (Str × FTNode)), nodeAt m (y :: ρ)
      = (match dictGet m y with
         | none => none
         | some w =>
           match ρ with
           | [] => some w
           | _ :: _ =>
             match w with
             | FTNode.dict es2 => nodeAt es2 ρ
             | _ => none) from by intro m; cases ρ <;> rfl]
  rw [dictGet_dictSet_ne l k y v h]
  cases ρ <;> rfl

theorem nodeAt_unfold (es : List (Str × FTNode)) (y : Str) (ρ : List Str) :
    nodeAt es (y :: ρ)
      = (match dictGet es y with
         | none => none
         | some v =>
           match ρ with
           | [] => some v
           | _ :: _ =>
             match v with
             | FTNode.dict es2 => nodeAt es2 ρ
             | _ => none) := by
  cases ρ <;> rfl

theorem leafAt_eq_none_of_nodeAt_null (es : List (Str × FTNode))
    (π : List Str) (h : nodeAt es π = some FTNode.null) :
    leafAt es π = none := by
  unfold leafAt
  rw [h]

theorem dictGet_append_ne {α β : Type} [DecidableEq α]
    (l : List (α × β)) (x y : α) (w : β) (h : ¬ x = y) :
    dictGet (l ++ [(x, w)]) y = dictGet l y := by
  induction l with
  | nil =>
    simp only [List.nil_append]
    rw [dictGet_cons, if_neg h]
  | cons q rest ih =>
    obtain ⟨k0, v0⟩ := q
    simp only [List.cons_append]
    rw [dictGet_cons, dictGet_cons]
    by_cases h1 : k0 = y
    · rw [if_pos h1, if_pos h1]
    · rw [if_neg h1, if_neg h1, ih]

theorem dictGet_append_self {α β : Type} [DecidableEq α]
    (l : List (α × β)) (x : α) (w : β) (h : dictGet l x = none) :
    dictGet (l ++ [(x, w)]) x = some w := by
  induction l with
  | nil =>
    simp only [List.nil_append]
    rw [dictGet_cons, if_pos rfl]
  | cons q rest ih =>
    obtain ⟨k0, v0⟩ := q
    rw [dictGet_cons] at h
    simp only [List.cons_append]
    rw [dictGet_cons]
    by_cases h1 : k0 = x
    · rw [if_pos h1] at h
      cases h
    · rw [if_neg h1] at h
      rw [if_neg h1, ih h]

theorem nodeAt_append_entry_ne (es : List (Str × FTNode)) (x y : Str)
    (w : FTNode) (ρ : List Str) (h : ¬ x = y) :
    nodeAt (es ++ [(x, w)]) (y :: ρ) = nodeAt es (y :: ρ) := by
  rw [nodeAt_unfold, nodeAt_unfold, dictGet_append_ne es x y w h]

theorem addWithParts_frame (cm : Bool) (f : File) :
    ∀ (p : List Str) (es es2 : List (Str × FTNode)),
    addWithParts cm f es p = Except.ok es2 →
    ∀ ρ, ρ ≠ p → leafAt es2 ρ = leafAt es ρ := by
  intro p
  induction p with
  | nil => intro es es2 hadd; simp [addWithParts] at hadd
  | cons x rest ih =>
    intro es es2 hadd ρ hρ
    cases rest with
    | nil =>
      simp only [addWithParts, setdefaultNode] at hadd
      cases hg : dictGet es x with
      | none =>
        rw [hg] at hadd
        simp only [List.isEmpty_nil, Bool.not_true, Bool.and_false,
          Bool.false_eq_true, if_false] at hadd
        cases hadd
        cases ρ with
        | nil => rw [leafAt_nil, leafAt_nil]
        | cons y ρ2 =>
          by_cases hyx : x = y
          · subst hyx
            cases ρ2 with
            | nil => exact absurd rfl hρ
            | cons z ρ3 =>
              unfold leafAt
              rw [nodeAt_dictSet_self_cons, nodeAt_unfold, hg]
          · unfold leafAt
            rw [nodeAt_dictSet_ne x _ y ρ2 hyx,
              nodeAt_append_entry_ne es x y _ ρ2 hyx]
      | some v =>
        rw [hg] at hadd
        cases v with
        | dict sub => simp at hadd
        | null => simp at hadd
        | files fs =>
          simp only at hadd
          split_ifs at hadd with hdup
          all_goals cases hadd
          all_goals
            cases ρ with
            | nil => rw [leafAt_nil, leafAt_nil]
            | cons y ρ2 =>
              by_cases hyx : x = y
              · subst hyx
                cases ρ2 with
                | nil => exact absurd rfl hρ
                | cons z ρ3 =>
                  unfold leafAt
                  rw [nodeAt_dictSet_self_cons, nodeAt_unfold, hg]
              · unfold leafAt
                rw [nodeAt_dictSet_ne x _ y ρ2 hyx]
    | cons y2 rest2 =>
      simp only [addWithParts, setdefaultNode] at hadd
      cases hg : dictGet es x with
      | none =>
        rw [hg] at hadd
        simp only at hadd
        cases hin : addWithParts cm f [] (y2 :: rest2) with
        | error e => rw [hin] at hadd; cases hadd
        | ok sub2 =>
          rw [hin, except_bind_ok] at hadd
          cases hadd
          cases ρ with
          | nil => rw [leafAt_nil, leafAt_nil]
          | cons y ρ2 =>
            by_cases hyx : x = y
            · subst hyx
              cases ρ2 with
              | nil =>
                unfold leafAt
                rw [nodeAt_dictSet_self_nil, nodeAt_unfold, hg]
              | cons z ρ3 =>
                have hρ3 : (z :: ρ3) ≠ (y2 :: rest2) := by
                  intro hc
                  exact hρ (by rw [hc])
                unfold leafAt
                rw [nodeAt_dictSet_self_cons, nodeAt_unfold, hg]
                have hfr := ih [] sub2 hin (z :: ρ3) hρ3
                have h0 : leafAt ([] : List (Str × FTNode)) (z :: ρ3)
                    = none := rfl
                rw [h0] at hfr
                unfold leafAt at hfr
                simp only
                rw [show (match nodeAt sub2 (z :: ρ3) with
                    | some (FTNode.files fs) => some fs
                    | _ => none) = none from hfr]
            · unfold leafAt
              rw [nodeAt_dictSet_ne x _ y ρ2 hyx,
                nodeAt_append_entry_ne es x y _ ρ2 hyx]
      | some v =>
        rw [hg] at hadd
        cases v with
        | null => simp at hadd
        | files fs => simp at hadd
        | dict sub =>
          simp only at hadd
          cases hin : addWithParts cm f sub (y2 :: rest2) with
          | error e => rw [hin] at hadd; cases hadd
          | ok sub2 =>
            rw [hin, except_bind_ok] at hadd
            cases hadd
            cases ρ with
            | nil => rw [leafAt_nil, leafAt_nil]
            | cons y ρ2 =>
              by_cases hyx : x = y
              · subst hyx
                cases ρ2 with
                | nil =>
                  unfold leafAt
                  rw [nodeAt_dictSet_self_nil, nodeAt_unfold, hg]
                | cons z ρ3 =>
                  have hρ3 : (z :: ρ3) ≠ (y2 :: rest2) := by
                    intro hc
                    exact hρ (by rw [hc])
                  have hfr := ih sub sub2 hin (z :: ρ3) hρ3
                  unfold leafAt
                  rw [nodeAt_dictSet_self_cons, nodeAt_unfold, hg]
                  simp only
                  unfold leafAt at hfr
                  exact hfr
              · unfold leafAt
                rw [nodeAt_dictSet_ne x _ y ρ2 hyx]

theorem addFilesCommon_props (n : Nat) (π0 : List Str) :
    ∀ (fs : List File) (out out2 : List (Str × FTNode)),
    (∀ f ∈ fs, f.parts.drop n = π0) →
    addFilesCommon n out fs = Except.ok out2 →
    ((fs ≠ [] ∨ (leafAt out π0).isSome) →
        leafAt out2 π0 = some ((leafAt out π0).getD [] ++ fs))
    ∧ (fs = [] → out2 = out)
    ∧ (∀ ρ, ρ ≠ π0 → leafAt out2 ρ = leafAt out ρ) := by
  intro fs
  induction fs with
  | nil =>
    intro out out2 _ hok
    have heq : out2 = out := by
      unfold addFilesCommon at hok
      rw [List.foldlM_nil, except_pure_eq_ok] at hok
      cases hok
      rfl
    subst heq
    refine ⟨?_, fun _ => rfl, fun ρ _ => rfl⟩
    intro h
    rcases h with h | h
    · exact absurd rfl h
    · obtain ⟨w, hw⟩ := Option.isSome_iff_exists.mp h
      rw [hw]
      simp
  | cons f fs2 ih =>
    intro out out2 hparts hok
    unfold addFilesCommon at hok
    rw [List.foldlM_cons] at hok
    have hfp : f.parts.drop n = π0 := hparts f (by simp)
    cases ho1 : addWithParts true f out (f.parts.drop n) with
    | error e => rw [ho1] at hok; cases hok
    | ok o1 =>
      rw [ho1, except_bind_ok] at hok
      have hok2 : addFilesCommon n o1 fs2 = Except.ok out2 := hok
      obtain ⟨ih1, ih2, ih3⟩ :=
        ih o1 out2 (fun g hg => hparts g (by simp [hg])) hok2
      rw [hfp] at ho1
      have hleaf1 : leafAt o1 π0
          = some ((leafAt out π0).getD [] ++ [f]) :=
        addWithParts_ok_leafAt true f π0 out o1 ho1
      have hfr1 : ∀ ρ, ρ ≠ π0 → leafAt o1 ρ = leafAt out ρ :=
        fun ρ hρ => addWithParts_frame true f π0 out o1 ho1 ρ hρ
      refine ⟨?_, ?_, ?_⟩
      · intro _
        have hs := ih1 (Or.inr (by rw [hleaf1]; rfl))
        rw [hs, hleaf1]
        simp
      · intro hc
        cases hc
      · intro ρ hρ
        rw [ih3 ρ hρ, hfr1 ρ hρ]

theorem dictSet_keys_of_mem {α β : Type} [DecidableEq α]
    (b : List (α × β)) (k : α) (v : β) (hmem : dictGet b k ≠ none) :
    (dictSet b k v).map Prod.fst = b.map Prod.fst := by
  induction b with
  | nil => exact absurd rfl hmem
  | cons q rest ih =>
    obtain ⟨k0, v0⟩ := q
    rw [dictGet_cons] at hmem
    by_cases h0 : k0 = k
    · subst h0
      simp [dictSet]
    · rw [if_neg h0] at hmem
      simp only [dictSet, if_neg h0, List.map_cons]
      rw [ih hmem]

theorem dictSet_wfKeys (b : List (Str × FTNode)) (k : Str) (v : FTNode)
    (hk : wfKeysEs b = true) (hv : wfKeysNode v = true)
    (hmem : dictGet b k ≠ none) :
    wfKeysEs (dictSet b k v) = true := by
  induction b with
  | nil => exact absurd rfl hmem
  | cons q rest ih =>
    obtain ⟨k0, v0⟩ := q
    rw [dictGet_cons] at hmem
    simp only [wfKeysEs, Bool.and_eq_true] at hk
    by_cases h0 : k0 = k
    · subst h0
      simp only [dictSet, if_pos rfl, eq_self_iff_true, if_true]
      simp only [wfKeysEs, Bool.and_eq_true]
      exact ⟨⟨hk.1.1, hv⟩, hk.2⟩
    · rw [if_neg h0] at hmem
      simp only [dictSet, if_neg h0]
      simp only [wfKeysEs, Bool.and_eq_true]
      refine ⟨⟨?_, hk.1.2⟩, ih hk.2 hmem⟩
      rw [dictSet_keys_of_mem rest k v hmem]
      exact hk.1.1

theorem dictSet_wfParts (n : Nat) (acc : List Str)
    (b : List (Str × FTNode)) (k : Str) (v : FTNode)
    (hp : wfPartsEs n acc b = true)
    (hv : wfPartsNode n (acc ++ [k]) v = true) :
    wfPartsEs n acc (dictSet b k v) = true := by
  induction b with
  | nil =>
    simp only [dictSet, wfPartsEs, Bool.and_eq_true]
    exact ⟨hv, trivial⟩
  | cons q rest ih =>
    obtain ⟨k0, v0⟩ := q
    simp only [wfPartsEs, Bool.and_eq_true] at hp
    by_cases h0 : k0 = k
    · subst h0
      simp only [dictSet, if_pos rfl, eq_self_iff_true, if_true]
      simp only [wfPartsEs, Bool.and_eq_true]
      exact ⟨hv, hp.2⟩
    · simp only [dictSet, if_neg h0]
      simp only [wfPartsEs, Bool.and_eq_true]
      exact ⟨hp.1, ih hp.2⟩

theorem dictSet_wfNE (b : List (Str × FTNode)) (k : Str) (v : FTNode)
    (hn : wfNEEs b = true) (hv : wfNENode v = true) :
    wfNEEs (dictSet b k v) = true := by
  induction b with
  | nil =>
    simp only [dictSet, wfNEEs, Bool.and_eq_true]
    exact ⟨hv, trivial⟩
  | cons q rest ih =>
    obtain ⟨k0, v0⟩ := q
    simp only [wfNEEs, Bool.and_eq_true] at hn
    by_cases h0 : k0 = k
    · subst h0
      simp only [dictSet, if_pos rfl, eq_self_iff_true, if_true]
      simp only [wfNEEs, Bool.and_eq_true]
      exact ⟨hv, hn.2⟩
    · simp only [dictSet, if_neg h0]
      simp only [wfNEEs, Bool.and_eq_true]
      exact ⟨hn.1, ih hn.2⟩

theorem dictGet_wfParts (n : Nat) (acc : List Str)
    (b : List (Str × FTNode)) (k : Str) (w : FTNode)
    (hg : dictGet b k = some w) (hp : wfPartsEs n acc b = true) :
    wfPartsNode n (acc ++ [k]) w = true := by
  induction b with
  | nil => simp [dictGet] at hg
  | cons q rest ih =>
    obtain ⟨k0, v0⟩ := q
    rw [dictGet_cons] at hg
    simp only [wfPartsEs, Bool.and_eq_true] at hp
    split_ifs at hg with h0
    · cases hg
      subst h0
      exact hp.1
    · exact ih hg hp.2

theorem leafAt_empty (π : List Str) :
    leafAt ([] : List (Str × FTNode)) π = none := by
  cases π with
  | nil => rfl
  | cons y σ => rfl

theorem leafAt_none_of_get_none (es : List (Str × FTNode)) (y : Str)
    (ρ : List Str) (hg : dictGet es y = none) : leafAt es (y :: ρ) = none := by
  unfold leafAt
  rw [nodeAt_unfold, hg]

theorem leafAt_none_of_get_null (es : List (Str × FTNode)) (y : Str)
    (ρ : List Str) (hg : dictGet es y = some FTNode.null) :
    leafAt es (y :: ρ) = none := by
  unfold leafAt
  rw [nodeAt_unfold, hg]
  cases ρ with
  | nil => rfl
  | cons z ρ2 => rfl

theorem leafAt_of_get_files_nil (es : List (Str × FTNode)) (y : Str)
    (fs : List File) (hg : dictGet es y = some (FTNode.files fs)) :
    leafAt es [y] = some fs := by
  unfold leafAt
  rw [nodeAt_unfold, hg]

theorem leafAt_none_of_get_files_cons (es : List (Str × FTNode)) (y : Str)
    (fs : List File) (z : Str) (ρ : List Str)
    (hg : dictGet es y = some (FTNode.files fs)) :
    leafAt es (y :: z :: ρ) = none := by
  unfold leafAt
  rw [nodeAt_unfold, hg]

theorem leafAt_of_get_dict (es : List (Str × FTNode)) (y : Str)
    (sub : List (Str × FTNode)) (z : Str) (ρ : List Str)
    (hg : dictGet es y = some (FTNode.dict sub)) :
    leafAt es (y :: z :: ρ) = leafAt sub (z :: ρ) := by
  unfold leafAt
  rw [nodeAt_unfold, hg]

theorem leafAt_none_of_get_dict_nil (es : List (Str × FTNode)) (y : Str)
    (sub : List (Str × FTNode))
    (hg : dictGet es y = some (FTNode.dict sub)) :
    leafAt es [y] = none := by
  unfold leafAt
  rw [nodeAt_unfold, hg]

theorem leafAt_dictSet_ne (l : List (Str × FTNode)) (k : Str) (v : FTNode)
    (y : Str) (ρ : List Str) (h : ¬ k = y) :
    leafAt (dictSet l k v) (y :: ρ) = leafAt l (y :: ρ) :=
  leafAt_congr _ _ _ (nodeAt_dictSet_ne k v y ρ h)

theorem leafAt_dictSet_dict (l : List (Str × FTNode)) (k : Str)
    (sub : List (Str × FTNode)) (y : Str) (ρ : List Str) :
    leafAt (dictSet l k (FTNode.dict sub)) (k :: y :: ρ)
      = leafAt sub (y :: ρ) := by
  unfold leafAt
  rw [nodeAt_dictSet_self_cons]

theorem path_ne_of_head_ne (acc : List Str) (y k : Str) (σ σ2 : List Str)
    (h : ¬ y = k) : ¬ (acc ++ y :: σ = acc ++ k :: σ2) := by
  intro hc
  have h2 := List.append_cancel_left hc
  injection h2 with h3 _
  exact h h3

theorem append_cons_assoc (acc : List Str) (k : Str) (σ : List Str) :
    (acc ++ [k]) ++ σ = acc ++ k :: σ := by
  simp

theorem not_mem_of_not_contains {k : Str} {l : List Str}
    (h : (!l.contains k) = true) : k ∉ l := by
  simpa using h

theorem isEmpty_false_of_map_eq {α β : Type} {l l2 : List α} (f : α → β)
    (hm : l2.map f = l.map f) (h : l.isEmpty = false) :
    l2.isEmpty = false := by
  cases l with
  | nil => simp at h
  | cons a t =>
    cases l2 with
    | nil => simp at hm
    | cons b t2 => rfl

theorem cfa_main_nil (n : Nat) (acc : List Str)
    (out b out2 a2 b2 : List (Str × FTNode))
    (hkb : wfKeysEs b = true) (hnb : wfNEEs b = true)
    (hpb : wfPartsEs n acc b = true)
    (hok : commonFilesAux n out [] b = Except.ok (out2, a2, b2)) :
    cfaPost n acc out [] b out2 a2 b2 := by
  unfold commonFilesAux at hok
  rw [except_pure_eq_ok] at hok
  cases hok
  refine ⟨?_, ?_, ?_, ?_, ?_, ?_, hkb, hnb, hpb, rfl⟩
  · intro π fa fb hla _
    rw [leafAt_empty] at hla
    cases hla
  · intro π fa hla _
    rw [leafAt_empty] at hla
    cases hla
  · intro π fb _ hlb
    exact hlb
  · intro ρ _
    rfl
  · intro y _ ρ
    rfl
  · intro ρ h
    exact Or.inl h

theorem cfa_skip_case (n : Nat) (acc : List Str) (k : Str) (va : FTNode)
    (out restA b o2 ra2 bb2 : List (Str × FTNode))
    (hknotin : k ∉ restA.map Prod.fst)
    (hbnone : ∀ σ, leafAt b (k :: σ) = none)
    (ih : cfaPost n acc out restA b o2 ra2 bb2) :
    cfaPost n acc out ((k, va) :: restA) b o2 ((k, va) :: ra2) bb2 := by
  obtain ⟨iA, iBa, iBb, iC, iD, iF, iEk, iEn, iEp, iEm⟩ := ih
  refine ⟨?_, ?_, ?_, ?_, ?_, ?_, iEk, iEn, iEp, iEm⟩
  · intro π fa fb hla hlb
    cases π with
    | nil => rw [leafAt_nil] at hla; cases hla
    | cons y σ =>
      by_cases hyk : k = y
      · subst hyk
        rw [hbnone σ] at hlb
        cases hlb
      · rw [leafAt_cons_ne k va restA y σ hyk] at hla
        obtain ⟨hOut, hA2, hB2⟩ := iA (y :: σ) fa fb hla hlb
        exact ⟨hOut, by rw [nodeAt_cons_ne k va ra2 y σ hyk]; exact hA2, hB2⟩
  · intro π fa hla hlb
    cases π with
    | nil => rw [leafAt_nil] at hla; cases hla
    | cons y σ =>
      by_cases hyk : k = y
      · subst hyk
        rw [leafAt_cons_same k va ra2 restA σ]
        exact hla
      · rw [leafAt_cons_ne k va restA y σ hyk] at hla
        rw [leafAt_cons_ne k va ra2 y σ hyk]
        exact iBa (y :: σ) fa hla hlb
  · intro π fb hla hlb
    cases π with
    | nil => rw [leafAt_nil] at hlb; cases hlb
    | cons y σ =>
      by_cases hyk : k = y
      · subst hyk
        rw [hbnone σ] at hlb
        cases hlb
      · rw [leafAt_cons_ne k va restA y σ hyk] at hla
        exact iBb (y :: σ) fb hla hlb
  · intro ρ hρ
    exact iC ρ (fun k2 hk2 σ2 => hρ k2 (List.mem_cons_of_mem k hk2) σ2)
  · intro y hy ρ
    have hy2 : ¬ y = k ∧ y ∉ restA.map Prod.fst := by simpa using hy
    exact iD y hy2.2 ρ
  · intro ρ hρ
    rcases iF ρ hρ with h | ⟨π, fa, fb, h1, h2, h3⟩
    · exact Or.inl h
    · right
      cases π with
      | nil => rw [leafAt_nil] at h1; cases h1
      | cons y σ =>
        by_cases hyk : k = y
        · subst hyk
          rw [leafAt_eq_none_of_not_mem restA k σ hknotin] at h1
          cases h1
        · exact ⟨y :: σ, fa, fb,
            by rw [leafAt_cons_ne k va restA y σ hyk]; exact h1, h2, h3⟩

theorem cfa_main :
    ∀ (N n : Nat) (acc : List Str)
      (out a b out2 a2 b2 : List (Str × FTNode)),
    esSize a ≤ N →
    wfKeysEs a = true → wfKeysEs b = true →
    wfNEEs a = true → wfNEEs b = true →
    wfPartsEs n acc a = true → wfPartsEs n acc b = true →
    commonFilesAux n out a b = Except.ok (out2, a2, b2) →
    cfaPost n acc out a b out2 a2 b2 := by
  intro N
  induction N with
  | zero =>
    intro n acc out a b out2 a2 b2 hsize hka hkb hna hnb hpa hpb hok
    cases a with
    | nil => exact cfa_main_nil n acc out b out2 a2 b2 hkb hnb hpb hok
    | cons q restA =>
      obtain ⟨k, va⟩ := q
      exfalso
      simp only [esSize] at hsize
      omega
  | succ N ihN =>
    intro n acc out a b out2 a2 b2 hsize hka hkb hna hnb hpa hpb hok
    cases a with
    | nil => exact cfa_main_nil n acc out b out2 a2 b2 hkb hnb hpb hok
    | cons q restA =>
      obtain ⟨k, va⟩ := q
      simp only [wfKeysEs, Bool.and_eq_true] at hka
      simp only [wfNEEs, Bool.and_eq_true] at hna
      simp only [wfPartsEs, Bool.and_eq_true] at hpa
      have hknotin : k ∉ restA.map Prod.fst := not_mem_of_not_contains hka.1.1
      simp only [esSize] at hsize
      have hsR : esSize restA ≤ N := by omega
      unfold commonFilesAux at hok
      cases hgb : dictGet b k with
      | none =>
        rw [hgb] at hok
        simp only at hok
        cases hrec : commonFilesAux n out restA b with
        | error e => rw [hrec] at hok; cases hok
        | ok trip =>
          obtain ⟨o2, ra2, bb2⟩ := trip
          rw [hrec, except_bind_ok] at hok
          cases hok
          exact cfa_skip_case n acc k va out restA b o2 ra2 bb2 hknotin
            (fun σ => leafAt_none_of_get_none b k σ hgb)
            (ihN n acc out restA b o2 ra2 bb2 hsR hka.2 hkb hna.2 hnb
              hpa.2 hpb hrec)
      | some v =>
        rw [hgb] at hok
        cases v with
        | null =>
          simp only at hok
          cases hrec : commonFilesAux n out restA b with
          | error e => rw [hrec] at hok; cases hok
          | ok trip =>
            obtain ⟨o2, ra2, bb2⟩ := trip
            rw [hrec, except_bind_ok] at hok
            cases hok
            exact cfa_skip_case n acc k va out restA b o2 ra2 bb2 hknotin
              (fun σ => leafAt_none_of_get_null b k σ hgb)
              (ihN n acc out restA b o2 ra2 bb2 hsR hka.2 hkb hna.2 hnb
                hpa.2 hpb hrec)
        | files fb0 =>
          cases va with
          | dict da => cases hok
          | null => cases hok
          | files fa0 =>
            simp only at hok
            cases hadd : addFilesCommon n out (fa0 ++ fb0) with
            | error e => rw [hadd] at hok; cases hok
            | ok outMid =>
              rw [hadd, except_bind_ok] at hok
              cases hrec : commonFilesAux n outMid restA
                  (dictSet b k FTNode.null) with
              | error e => rw [hrec] at hok; cases hok
              | ok trip =>
                obtain ⟨o3, ra2, bb3⟩ := trip
                rw [hrec, except_bind_ok] at hok
                cases hok
                have hmem : dictGet b k ≠ none := by
                  rw [hgb]
                  intro hc
                  cases hc
                have hfane : fa0 ≠ [] := by
                  simpa [wfNENode] using hna.1
                have hpfa : ∀ f ∈ fa0, f.parts.drop n = acc ++ [k] := by
                  have h := hpa.1
                  simp only [wfPartsNode, List.all_eq_true,
                    decide_eq_true_eq] at h
                  exact h
                have hpfb : ∀ f ∈ fb0, f.parts.drop n = acc ++ [k] := by
                  have h := dictGet_wfParts n acc b k (FTNode.files fb0)
                    hgb hpb
                  simp only [wfPartsNode, List.all_eq_true,
                    decide_eq_true_eq] at h
                  exact h
                have hpboth : ∀ f ∈ fa0 ++ fb0,
                    f.parts.drop n = acc ++ [k] := by
                  intro f hf
                  rcases List.mem_append.mp hf with h | h
                  · exact hpfa f h
                  · exact hpfb f h
                obtain ⟨hP1, hP2, hP3⟩ :=
                  addFilesCommon_props n (acc ++ [k]) (fa0 ++ fb0) out
                    outMid hpboth hadd
                have hOutMid : leafAt outMid (acc ++ [k])
                    = some ((leafAt out (acc ++ [k])).getD []
                        ++ (fa0 ++ fb0)) :=
                  hP1 (Or.inl (by simp [hfane]))
                have hkb2 : wfKeysEs (dictSet b k FTNode.null) = true :=
                  dictSet_wfKeys b k FTNode.null hkb
                    (by simp [wfKeysNode]) hmem
                have hnb2 : wfNEEs (dictSet b k FTNode.null) = true :=
                  dictSet_wfNE b k FTNode.null hnb (by simp [wfNENode])
                have hpb2 : wfPartsEs n acc (dictSet b k FTNode.null)
                    = true :=
                  dictSet_wfParts n acc b k FTNode.null hpb
                    (by simp [wfPartsNode])
                have hmb2 : (dictSet b k FTNode.null).map Prod.fst
                    = b.map Prod.fst :=
                  dictSet_keys_of_mem b k FTNode.null hmem
                obtain ⟨iA, iBa, iBb, iC, iD, iF, iEk, iEn, iEp, iEm⟩ :=
                  ihN n acc outMid restA (dictSet b k FTNode.null)
                    o3 ra2 bb3 hsR hka.2 hkb2 hna.2 hnb2 hpa.2 hpb2 hrec
                refine ⟨?_, ?_, ?_, ?_, ?_, ?_, iEk, iEn, iEp,
                  by rw [iEm, hmb2]⟩
                · intro π fa fb hla hlb
                  cases π with
                  | nil => rw [leafAt_nil] at hla; cases hla
                  | cons y σ =>
                    by_cases hyk : k = y
                    · subst hyk
                      cases σ with
                      | nil =>
                        rw [leafAt_of_get_files_nil _ k fa0
                          (by rw [dictGet_cons, if_pos rfl])] at hla
                        injection hla with hfa
                        rw [leafAt_of_get_files_nil b k fb0 hgb] at hlb
                        injection hlb with hfb
                        subst hfa
                        subst hfb
                        refine ⟨?_, nodeAt_cons_self_nil k FTNode.null ra2,
                          ?_⟩
                        · rw [iC (acc ++ [k])
                            (fun k2 hk2 σ2 =>
                              path_ne_of_head_ne acc k k2 [] σ2
                                (fun hc => hknotin (by rw [hc]; exact hk2)))]
                          rw [hOutMid]
                        · rw [iD k hknotin [],
                            nodeAt_dictSet_self_nil k FTNode.null]
                      | cons z σ2 =>
                        rw [leafAt_none_of_get_files_cons _ k fa0 z σ2
                          (by rw [dictGet_cons, if_pos rfl])] at hla
                        cases hla
                    · rw [leafAt_cons_ne k (FTNode.files fa0) restA y σ
                        hyk] at hla
                      have hlb2 : leafAt (dictSet b k FTNode.null) (y :: σ)
                          = some fb := by
                        rw [leafAt_dictSet_ne b k FTNode.null y σ hyk]
                        exact hlb
                      obtain ⟨hOut, hA2, hB2⟩ := iA (y :: σ) fa fb hla hlb2
                      refine ⟨?_, by
                        rw [nodeAt_cons_ne k FTNode.null ra2 y σ hyk]
                        exact hA2, hB2⟩
                      rw [hOut, hP3 (acc ++ y :: σ)
                        (path_ne_of_head_ne acc y k σ []
                          (fun hc => hyk hc.symm))]
                · intro π fa hla hlb
                  cases π with
                  | nil => rw [leafAt_nil] at hla; cases hla
                  | cons y σ =>
                    by_cases hyk : k = y
                    · subst hyk
                      cases σ with
                      | nil =>
                        rw [leafAt_of_get_files_nil b k fb0 hgb] at hlb
                        cases hlb
                      | cons z σ2 =>
                        rw [leafAt_none_of_get_files_cons _ k fa0 z σ2
                          (by rw [dictGet_cons, if_pos rfl])] at hla
                        cases hla
                    · rw [leafAt_cons_ne k (FTNode.files fa0) restA y σ
                        hyk] at hla
                      rw [leafAt_cons_ne k FTNode.null ra2 y σ hyk]
                      exact iBa (y :: σ) fa hla (by
                        rw [leafAt_dictSet_ne b k FTNode.null y σ hyk]
                        exact hlb)
                · intro π fb hla hlb
                  cases π with
                  | nil => rw [leafAt_nil] at hlb; cases hlb
                  | cons y σ =>
                    by_cases hyk : k = y
                    · subst hyk
                      cases σ with
                      | nil =>
                        rw [leafAt_of_get_files_nil _ k fa0
                          (by rw [dictGet_cons, if_pos rfl])] at hla
                        cases hla
                      | cons z σ2 =>
                        rw [leafAt_none_of_get_files_cons b k fb0 z σ2
                          hgb] at hlb
                        cases hlb
                    · rw [leafAt_cons_ne k (FTNode.files fa0) restA y σ
                        hyk] at hla
                      exact iBb (y :: σ) fb hla (by
                        rw [leafAt_dictSet_ne b k FTNode.null y σ hyk]
                        exact hlb)
                · intro ρ hρ
                  rw [iC ρ (fun k2 hk2 σ2 =>
                      hρ k2 (List.mem_cons_of_mem k hk2) σ2),
                    hP3 ρ (hρ k (List.mem_cons_self k _) [])]
                · intro y hy ρ
                  have hy2 : ¬ y = k ∧ y ∉ restA.map Prod.fst := by
                    simpa using hy
                  rw [iD y hy2.2 ρ, nodeAt_dictSet_ne k FTNode.null y ρ
                    (fun hc => hy2.1 hc.symm)]
                · intro ρ hρ
                  rcases iF ρ hρ with hmid | ⟨π, fa, fb, h1, h2, h3⟩
                  · by_cases hρk : ρ = acc ++ [k]
                    · right
                      exact ⟨[k], fa0, fb0,
                        leafAt_of_get_files_nil _ k fa0
                          (by rw [dictGet_cons, if_pos rfl]),
                        leafAt_of_get_files_nil b k fb0 hgb, hρk⟩
                    · left
                      rw [hP3 ρ hρk] at hmid
                      exact hmid
                  · right
                    cases π with
                    | nil => rw [leafAt_nil] at h1; cases h1
                    | cons y σ =>
                      by_cases hyk : k = y
                      · subst hyk
                        rw [leafAt_eq_none_of_not_mem restA k σ
                          hknotin] at h1
                        cases h1
                      · refine ⟨y :: σ, fa, fb, by
                          rw [leafAt_cons_ne k (FTNode.files fa0) restA y σ
                            hyk]
                          exact h1, ?_, h3⟩
                        rw [leafAt_dictSet_ne b k FTNode.null y σ hyk] at h2
                        exact h2
        | dict db =>
          cases va with
          | files fa0 => cases hok
          | null => cases hok
          | dict da =>
            simp only at hok
            simp only [ftSize] at hsize
            have hsDa : esSize da ≤ N := by omega
            cases hrec1 : commonFilesAux n out da db with
            | error e => rw [hrec1] at hok; cases hok
            | ok trip1 =>
              obtain ⟨oM, da2, db2⟩ := trip1
              rw [hrec1, except_bind_ok] at hok
              cases hrec2 : commonFilesAux n oM restA
                  (dictSet b k (FTNode.dict db2)) with
              | error e => rw [hrec2] at hok; cases hok
              | ok trip2 =>
                obtain ⟨o3, ra2, bb3⟩ := trip2
                rw [hrec2, except_bind_ok] at hok
                cases hok
                have hmem : dictGet b k ≠ none := by
                  rw [hgb]
                  intro hc
                  cases hc
                have hkda : wfKeysEs da = true := by
                  simpa [wfKeysNode] using hka.1.2
                have hkdb : wfKeysEs db = true := by
                  simpa [wfKeysNode] using
                    dictGet_wfKeys b k (FTNode.dict db) hgb hkb
                have hnda : wfNEEs da = true := by
                  have h := hna.1
                  simp only [wfNENode, Bool.and_eq_true] at h
                  exact h.2
                have hndbFull := dictGet_wfNE b k (FTNode.dict db) hgb hnb
                simp only [wfNENode, Bool.and_eq_true] at hndbFull
                have hdbne : db.isEmpty = false := by
                  simpa using hndbFull.1
                have hpda : wfPartsEs n (acc ++ [k]) da = true := by
                  simpa [wfPartsNode] using hpa.1
                have hpdb : wfPartsEs n (acc ++ [k]) db = true := by
                  simpa [wfPartsNode] using
                    dictGet_wfParts n acc b k (FTNode.dict db) hgb hpb
                obtain ⟨jA, jBa, jBb, jC, jD, jF, jEk, jEn, jEp, jEm⟩ :=
                  ihN n (acc ++ [k]) out da db oM da2 db2 hsDa hkda hkdb
                    hnda hndbFull.2 hpda hpdb hrec1
                have hdb2ne : db2.isEmpty = false :=
                  isEmpty_false_of_map_eq Prod.fst jEm hdbne
                have hkb2 : wfKeysEs (dictSet b k (FTNode.dict db2))
                    = true :=
                  dictSet_wfKeys b k _ hkb
                    (by simpa [wfKeysNode] using jEk) hmem
                have hnb2 : wfNEEs (dictSet b k (FTNode.dict db2))
                    = true :=
                  dictSet_wfNE b k _ hnb (by
                    simp only [wfNENode, Bool.and_eq_true]
                    exact ⟨by simpa using hdb2ne, jEn⟩)
                have hpb2 : wfPartsEs n acc (dictSet b k (FTNode.dict db2))
                    = true :=
                  dictSet_wfParts n acc b k _ hpb
                    (by simpa [wfPartsNode] using jEp)
                have hmb2 : (dictSet b k (FTNode.dict db2)).map Prod.fst
                    = b.map Prod.fst :=
                  dictSet_keys_of_mem b k _ hmem
                obtain ⟨iA, iBa, iBb, iC, iD, iF, iEk, iEn, iEp, iEm⟩ :=
                  ihN n acc oM restA (dictSet b k (FTNode.dict db2))
                    o3 ra2 bb3 hsR hka.2 hkb2 hna.2 hnb2 hpa.2 hpb2 hrec2
                refine ⟨?_, ?_, ?_, ?_, ?_, ?_, iEk, iEn, iEp,
                  by rw [iEm, hmb2]⟩
                · intro π fa fb hla hlb
                  cases π with
                  | nil => rw [leafAt_nil] at hla; cases hla
                  | cons y σ =>
                    by_cases hyk : k = y
                    · subst hyk
                      cases σ with
                      | nil =>
                        rw [leafAt_none_of_get_dict_nil _ k da
                          (by rw [dictGet_cons, if_pos rfl])] at hla
                        cases hla
                      | cons z σ2 =>
                        rw [leafAt_of_get_dict _ k da z σ2
                          (by rw [dictGet_cons, if_pos rfl])] at hla
                        rw [leafAt_of_get_dict b k db z σ2 hgb] at hlb
                        obtain ⟨jOut, jA2, jB2⟩ :=
                          jA (z :: σ2) fa fb hla hlb
                        refine ⟨?_, ?_, ?_⟩
                        · rw [iC (acc ++ k :: z :: σ2)
                            (fun k2 hk2 σ3 =>
                              path_ne_of_head_ne acc k k2 (z :: σ2) σ3
                                (fun hc => hknotin (by rw [hc]; exact hk2)))]
                          rw [← append_cons_assoc acc k (z :: σ2), jOut]
                        · rw [nodeAt_cons_self_cons k (FTNode.dict da2)
                            ra2 z σ2]
                          exact jA2
                        · rw [iD k hknotin (z :: σ2),
                            nodeAt_dictSet_self_cons k (FTNode.dict db2)
                              z σ2]
                          exact jB2
                    · rw [leafAt_cons_ne k (FTNode.dict da) restA y σ
                        hyk] at hla
                      have hlb2 : leafAt (dictSet b k (FTNode.dict db2))
                          (y :: σ) = some fb := by
                        rw [leafAt_dictSet_ne b k (FTNode.dict db2) y σ
                          hyk]
                        exact hlb
                      obtain ⟨hOut, hA2, hB2⟩ := iA (y :: σ) fa fb hla hlb2
                      refine ⟨?_, by
                        rw [nodeAt_cons_ne k (FTNode.dict da2) ra2 y σ hyk]
                        exact hA2, hB2⟩
                      rw [hOut, jC (acc ++ y :: σ)
                        (fun kd hkd σ2 => by
                          rw [append_cons_assoc]
                          exact path_ne_of_head_ne acc y k σ (kd :: σ2)
                            (fun hc => hyk hc.symm))]
                · intro π fa hla hlb
                  cases π with
                  | nil => rw [leafAt_nil] at hla; cases hla
                  | cons y σ =>
                    by_cases hyk : k = y
                    · subst hyk
                      cases σ with
                      | nil =>
                        rw [leafAt_none_of_get_dict_nil _ k da
                          (by rw [dictGet_cons, if_pos rfl])] at hla
                        cases hla
                      | cons z σ2 =>
                        rw [leafAt_of_get_dict _ k da z σ2
                          (by rw [dictGet_cons, if_pos rfl])] at hla
                        rw [leafAt_of_get_dict b k db z σ2 hgb] at hlb
                        rw [leafAt_cons_dict k da2 ra2 z σ2]
                        exact jBa (z :: σ2) fa hla hlb
                    · rw [leafAt_cons_ne k (FTNode.dict da) restA y σ
                        hyk] at hla
                      rw [leafAt_cons_ne k (FTNode.dict da2) ra2 y σ hyk]
                      exact iBa (y :: σ) fa hla (by
                        rw [leafAt_dictSet_ne b k (FTNode.dict db2) y σ
                          hyk]
                        exact hlb)
                · intro π fb hla hlb
                  cases π with
                  | nil => rw [leafAt_nil] at hlb; cases hlb
                  | cons y σ =>
                    by_cases hyk : k = y
                    · subst hyk
                      cases σ with
                      | nil =>
                        rw [leafAt_none_of_get_dict_nil b k db hgb] at hlb
                        cases hlb
                      | cons z σ2 =>
                        rw [leafAt_of_get_dict b k db z σ2 hgb] at hlb
                        rw [leafAt_of_get_dict _ k da z σ2
                          (by rw [dictGet_cons, if_pos rfl])] at hla
                        exact iBb (k :: z :: σ2) fb
                          (leafAt_eq_none_of_not_mem restA k (z :: σ2)
                            hknotin)
                          (by
                            rw [leafAt_dictSet_dict b k db2 z σ2]
                            exact jBb (z :: σ2) fb hla hlb)
                    · rw [leafAt_cons_ne k (FTNode.dict da) restA y σ
                        hyk] at hla
                      exact iBb (y :: σ) fb hla (by
                        rw [leafAt_dictSet_ne b k (FTNode.dict db2) y σ
                          hyk]
                        exact hlb)
                · intro ρ hρ
                  rw [iC ρ (fun k2 hk2 σ2 =>
                      hρ k2 (List.mem_cons_of_mem k hk2) σ2),
                    jC ρ (fun kd hkd σ2 => by
                      rw [append_cons_assoc]
                      exact hρ k (List.mem_cons_self k _) (kd :: σ2))]
                · intro y hy ρ
                  have hy2 : ¬ y = k ∧ y ∉ restA.map Prod.fst := by
                    simpa using hy
                  rw [iD y hy2.2 ρ, nodeAt_dictSet_ne k (FTNode.dict db2)
                    y ρ (fun hc => hy2.1 hc.symm)]
                · intro ρ hρ
                  rcases iF ρ hρ with hmid | ⟨π, fa, fb, h1, h2, h3⟩
                  · rcases jF ρ hmid with hout | ⟨π2, fa, fb, g1, g2, g3⟩
                    · exact Or.inl hout
                    · right
                      cases π2 with
                      | nil => rw [leafAt_nil] at g1; cases g1
                      | cons z σ2 =>
                        refine ⟨k :: z :: σ2, fa, fb, ?_, ?_, ?_⟩
                        · rw [leafAt_cons_dict k da restA z σ2]
                          exact g1
                        · rw [leafAt_of_get_dict b k db z σ2 hgb]
                          exact g2
                        · rw [g3]
                          exact append_cons_assoc acc k (z :: σ2)
                  · right
                    cases π with
                    | nil => rw [leafAt_nil] at h1; cases h1
                    | cons y σ =>
                      by_cases hyk : k = y
                      · subst hyk
                        rw [leafAt_eq_none_of_not_mem restA k σ
                          hknotin] at h1
                        cases h1
                      · refine ⟨y :: σ, fa, fb, by
                          rw [leafAt_cons_ne k (FTNode.dict da) restA y σ
                            hyk]
                          exact h1, ?_, h3⟩
                        rw [leafAt_dictSet_ne b k (FTNode.dict db2) y σ
                          hyk] at h2
                        exact h2

theorem dropWhile_eq_self_of_all (p : Char → Bool) (l : Str)
    (h : ∀ c ∈ l, p c = false) : l.dropWhile p = l := by
  cases l with
  | nil => rfl
  | cons c t => simp [List.dropWhile_cons, h c (by simp)]

theorem pyStrip_eq_self (l : Str) (h : ∀ c ∈ l, pyIsSpace c = false) :
    pyStrip l = l := by
  unfold pyStrip
  rw [dropWhile_eq_self_of_all pyIsSpace l h,
    dropWhile_eq_self_of_all pyIsSpace l.reverse
      (fun c hc => h c (List.mem_reverse.mp hc)),
    List.reverse_reverse]

theorem takeWhile_nosep_all (src : Str) (h : ∀ c ∈ src, isSep c = false) :
    src.takeWhile (fun c => !isSep c) = src := by
  induction src with
  | nil => rfl
  | cons c t ih =>
    simp only [List.takeWhile_cons, h c (by simp), Bool.not_false, if_true]
    rw [ih (fun x hx => h x (by simp [hx]))]

theorem takeWhile_nosep_append (src : Str) (d : Char) (rest : Str)
    (h : ∀ c ∈ src, isSep c = false) (hd : isSep d = true) :
    (src ++ d :: rest).takeWhile (fun c => !isSep c) = src := by
  induction src with
  | nil => simp [List.takeWhile_cons, hd]
  | cons c t ih =>
    simp only [List.cons_append, List.takeWhile_cons, h c (by simp),
      Bool.not_false, if_true]
    rw [ih (fun x hx => h x (by simp [hx]))]

theorem extrasScan_append_nosep (src rest : Str)
    (h : ∀ c ∈ src, isSep c = false) :
    extrasScan (src ++ rest) = extrasScan rest := by
  induction src with
  | nil => rfl
  | cons c t ih =>
    simp only [List.cons_append, extrasScan, h c (by simp),
      Bool.false_eq_true, if_false]
    exact ih (fun x hx => h x (by simp [hx]))

theorem scanTok_nosep (tok : Str) (h : ∀ c ∈ tok, isSep c = false) :
    ∀ (s : Char) (acc r : Str),
    scanTok s acc (tok ++ r) = scanTok s (tok.reverse ++ acc) r := by
  induction tok with
  | nil => intro s acc r; rfl
  | cons c t ih =>
    intro s acc r
    simp only [List.cons_append, scanTok, h c (by simp),
      Bool.false_eq_true, if_false, List.append_eq]
    rw [ih (fun x hx => h x (by simp [hx])) s (c :: acc) r]
    simp [List.reverse_cons, List.append_assoc]

theorem scanTok_flatten (cl : List (Char × Str))
    (hcl : ∀ p ∈ cl, isSep p.1 = true ∧ p.2 ≠ [] ∧
        ∀ c ∈ p.2, isSep c = false) :
    ∀ (s : Char) (acc : Str), acc ≠ [] →
    scanTok s acc (flattenClauses cl)
      = (s, acc.reverse) :: extrasScan (flattenClauses cl) := by
  cases cl with
  | nil =>
    intro s acc hacc
    have hae : acc.isEmpty = false := by
      cases acc with
      | nil => exact absurd rfl hacc
      | cons _ _ => rfl
    simp [flattenClauses, scanTok, extrasScan, hae]
  | cons p rest =>
    intro s acc hacc
    obtain ⟨c2, s2⟩ := p
    obtain ⟨hsep, _, _⟩ := hcl (c2, s2) (by simp)
    have hae : acc.isEmpty = false := by
      cases acc with
      | nil => exact absurd rfl hacc
      | cons _ _ => rfl
    have hfc : flattenClauses ((c2, s2) :: rest)
        = c2 :: (s2 ++ flattenClauses rest) := by
      simp [flattenClauses]
    rw [hfc]
    simp only [scanTok, extrasScan, hsep, if_true, hae,
      Bool.false_eq_true, if_false]

theorem extrasScan_flatten (cl : List (Char × Str))
    (hcl : ∀ p ∈ cl, isSep p.1 = true ∧ p.2 ≠ [] ∧
        ∀ c ∈ p.2, isSep c = false) :
    extrasScan (flattenClauses cl) = cl := by
  induction cl with
  | nil => rfl
  | cons p rest ih =>
    obtain ⟨c2, s2⟩ := p
    obtain ⟨hsep, hne, hchars⟩ := hcl (c2, s2) (by simp)
    have hfc : flattenClauses ((c2, s2) :: rest)
        = c2 :: (s2 ++ flattenClauses rest) := by
      simp [flattenClauses]
    rw [hfc]
    simp only [extrasScan, hsep, if_true]
    rw [scanTok_nosep s2 hchars c2 [] (flattenClauses rest),
      List.append_nil,
      scanTok_flatten rest (fun p hp => hcl p (by simp [hp])) c2
        s2.reverse (by simp [hne]),
      List.reverse_reverse,
      ih (fun p hp => hcl p (by simp [hp]))]

theorem splitOnceChar_none (sep : Char) (a : Str)
    (h : ∀ c ∈ a, ¬ c = sep) : splitOnceChar sep a = (a, none) := by
  induction a with
  | nil => rfl
  | cons c t ih =>
    simp only [splitOnceChar]
    rw [if_neg (h c (by simp)), ih (fun x hx => h x (by simp [hx]))]

theorem splitOnceChar_append (sep : Char) (a b : Str)
    (h : ∀ c ∈ a, ¬ c = sep) :
    splitOnceChar sep (a ++ sep :: b) = (a, some b) := by
  induction a with
  | nil => simp [splitOnceChar]
  | cons c t ih =>
    simp only [List.cons_append, splitOnceChar, List.append_eq]
    rw [if_neg (h c (by simp)), ih (fun x hx => h x (by simp [hx]))]

theorem splitOnChar_nosep (sep : Char) (x : Str)
    (h : ∀ c ∈ x, ¬ c = sep) : splitOnChar sep x = [x] := by
  induction x with
  | nil => rfl
  | cons c t ih =>
    simp only [splitOnChar]
    rw [if_neg (h c (by simp)), ih (fun y hy => h y (by simp [hy]))]

theorem splitOnChar_append_sep (sep : Char) (x r : Str)
    (h : ∀ c ∈ x, ¬ c = sep) :
    splitOnChar sep (x ++ sep :: r) = x :: splitOnChar sep r := by
  induction x with
  | nil => simp [splitOnChar]
  | cons c t ih =>
    simp only [List.cons_append, splitOnChar, List.append_eq]
    rw [if_neg (h c (by simp)), ih (fun y hy => h y (by simp [hy]))]

theorem intercalate_cons_cons (sep : Str) (x y : Str) (t : List Str) :
    List.intercalate sep (x :: y :: t)
      = x ++ sep ++ List.intercalate sep (y :: t) := by
  simp [List.intercalate, List.intersperse]

theorem splitOnChar_intercalate (items : List Str)
    (h : ∀ p ∈ items, ∀ c ∈ p, ¬ c = ',') :
    items ≠ [] →
    splitOnChar ',' (List.intercalate [','] items) = items := by
  induction items with
  | nil => intro hc; exact absurd rfl hc
  | cons x t ih =>
    intro _
    cases t with
    | nil =>
      rw [show List.intercalate [','] [x] = x from by
        simp [List.intercalate]]
      exact splitOnChar_nosep ',' x (h x (by simp))
    | cons y t2 =>
      rw [intercalate_cons_cons [','] x y t2, List.append_assoc,
        show ([','] : Str) ++ List.intercalate [','] (y :: t2)
          = ',' :: List.intercalate [','] (y :: t2) from rfl,
        splitOnChar_append_sep ',' x _ (h x (by simp)),
        ih (fun p hp => h p (by simp [hp])) (by simp)]

theorem dictSet_append_of_none {α β : Type} [DecidableEq α]
    (l : List (α × β)) (k : α) (v : β) (h : dictGet l k = none) :
    dictSet l k v = l ++ [(k, v)] := by
  induction l with
  | nil => rfl
  | cons q rest ih =>
    obtain ⟨k0, v0⟩ := q
    by_cases h0 : k0 = k
    · exfalso
      rw [dictGet_cons, if_pos h0] at h
      cases h
    · rw [dictGet_cons, if_neg h0] at h
      simp only [dictSet, if_neg h0, List.cons_append]
      rw [ih h]

theorem fileArgsOfName_argName :
    ∀ k : FileArgs, fileArgsOfName (argName k) = some k := by
  intro k
  cases k
  all_goals rfl

theorem argName_wf :
    ∀ k : FileArgs, argName k ≠ [] ∧
      ∀ c ∈ argName k,
        isSep c = false ∧ pyIsSpace c = false ∧ ¬ c = '=' := by
  intro k
  cases k
  all_goals decide

theorem set_arg_flag_val (f : File) (k : FileArgs) (s : Str)
    (hk : argTypeOf k = ArgTy.flag) :
    File.set_arg f (argName k) (ArgVal.vStr s)
      = Except.error PyErr.valueError := by
  unfold File.set_arg
  rw [fileArgsOfName_argName k]
  simp [hk]
  rfl

theorem set_arg_flag_noval (f : File) (k : FileArgs)
    (hk : argTypeOf k = ArgTy.flag) :
    File.set_arg f (argName k) ArgVal.vTrue
      = Except.ok { f with args := dictSet f.args k ArgVal.vTrue } := by
  unfold File.set_arg
  rw [fileArgsOfName_argName k]
  simp [hk]
  rfl

theorem set_arg_scalar_noval (f : File) (k : FileArgs)
    (hk : argTypeOf k = ArgTy.scalar) :
    File.set_arg f (argName k) ArgVal.vTrue
      = Except.ok { f with args := dictSet f.args k ArgVal.vTrue } := by
  unfold File.set_arg
  rw [fileArgsOfName_argName k]
  simp [hk, argValTruthy]
  rfl

theorem set_arg_scalar_val (f : File) (k : FileArgs) (s : Str)
    (hk : argTypeOf k = ArgTy.scalar) (hs : s.isEmpty = false) :
    File.set_arg f (argName k) (ArgVal.vStr s)
      = Except.ok { f with args := dictSet f.args k (ArgVal.vStr s) } := by
  unfold File.set_arg
  rw [fileArgsOfName_argName k]
  simp [hk, argValTruthy, hs]
  rfl

theorem set_arg_list_noval (f : File) (k : FileArgs)
    (hk : argTypeOf k = ArgTy.listTy) :
    File.set_arg f (argName k) ArgVal.vTrue
      = Except.error PyErr.assertionError := by
  unfold File.set_arg
  rw [fileArgsOfName_argName k]
  simp [hk, argValTruthy]
  rfl

theorem set_arg_list_val (f : File) (k : FileArgs) (s : Str)
    (hk : argTypeOf k = ArgTy.listTy) (hs : s.isEmpty = false)
    (hnone : dictGet f.args k = none) :
    File.set_arg f (argName k) (ArgVal.vStr s)
      = Except.ok { f with
          args := f.args ++ [(k, ArgVal.vList (splitOnChar ',' s))] } := by
  unfold File.set_arg
  rw [fileArgsOfName_argName k]
  simp [hk, argValTruthy, hs, hnone]
  rfl

theorem scanTok_nosep_all (tok : Str) (h : ∀ c ∈ tok, isSep c = false)
    (hne : tok ≠ []) (s : Char) : scanTok s [] tok = [(s, tok)] := by
  have h2 := scanTok_nosep tok h s [] []
  rw [List.append_nil, List.append_nil] at h2
  rw [h2]
  have hre : tok.reverse.isEmpty = false := by
    cases htr : tok.reverse with
    | nil => exact absurd (by simpa using htr) hne
    | cons _ _ => rfl
  simp [scanTok, hre]

theorem procExtra_semicolon (f : File) (hs : List Str) (tok : Str)
    (htok : ¬ tok = []) :
    File.procExtra (f, hs) (';', tok)
      = (File.set_arg f (splitOnceChar '=' tok).1
            (match (splitOnceChar '=' tok).2 with
             | none => ArgVal.vTrue
             | some s => ArgVal.vStr s)) >>= fun f2 => pure (f2, hs) := by
  cases tok with
  | nil => exact absurd rfl htok
  | cons c t => rfl

theorem procExtra_colon (f : File) (hs : List Str) (extra : Str)
    (hex : ¬ extra = []) :
    File.procExtra (f, hs) (':', extra)
      = Except.ok (f.set_dst (some extra), hs) := by
  cases extra with
  | nil => exact absurd rfl hex
  | cons c t => rfl

theorem procExtra_pipe (f : File) (hs : List Str) (extra : Str)
    (hex : ¬ extra = []) :
    File.procExtra (f, hs) ('|', extra)
      = Except.ok (f, hs ++ [extra]) := by
  cases extra with
  | nil => exact absurd rfl hex
  | cons c t => rfl

theorem procExtra_semicolon_noval (f : File) (hs : List Str) (tok k2 : Str)
    (htok : ¬ tok = []) (hsp : splitOnceChar '=' tok = (k2, none)) :
    File.procExtra (f, hs) (';', tok)
      = (File.set_arg f k2 ArgVal.vTrue) >>= fun f2 => pure (f2, hs) := by
  rw [procExtra_semicolon f hs tok htok, hsp]

theorem procExtra_semicolon_val (f : File) (hs : List Str) (tok k2 v : Str)
    (htok : ¬ tok = []) (hsp : splitOnceChar '=' tok = (k2, some v)) :
    File.procExtra (f, hs) (';', tok)
      = (File.set_arg f k2 (ArgVal.vStr v)) >>= fun f2 => pure (f2, hs) := by
  rw [procExtra_semicolon f hs tok htok, hsp]

theorem mem_flattenClauses {c : Char} {cl : List (Char × Str)}
    (h : c ∈ flattenClauses cl) : ∃ p ∈ cl, c = p.1 ∨ c ∈ p.2 := by
  simp only [flattenClauses, List.mem_flatten, List.mem_map] at h
  obtain ⟨l, ⟨p, hp, rfl⟩, hcl2⟩ := h
  exact ⟨p, hp, by simpa using hcl2⟩

theorem sep_not_space (c : Char) (h : isSep c = true) :
    pyIsSpace c = false := by
  simp only [isSep, Bool.or_eq_true, decide_eq_true_eq] at h
  rcases h with (rfl | rfl) | rfl
  all_goals decide

theorem flattenClauses_cons (p : Char × Str) (rest : List (Char × Str)) :
    flattenClauses (p :: rest) = p.1 :: (p.2 ++ flattenClauses rest) := rfl

theorem takeWhile_nosep_clauses (s0 : Char) (srest : Str)
    (cl : List (Char × Str)) (h : ∀ c ∈ s0 :: srest, isSep c = false)
    (hcl : ∀ p ∈ cl, isSep p.1 = true) :
    List.takeWhile (fun c => !isSep c) (s0 :: (srest ++ flattenClauses cl))
      = s0 :: srest := by
  cases cl with
  | nil =>
    rw [show flattenClauses [] = [] from rfl, List.append_nil]
    exact takeWhile_nosep_all (s0 :: srest) h
  | cons p rest =>
    rw [flattenClauses_cons]
    simpa only [List.cons_append] using
      takeWhile_nosep_append (s0 :: srest) p.1 (p.2 ++ flattenClauses rest)
        h (hcl p (by simp))

theorem mem_intercalate_comma {c : Char} :
    ∀ items : List Str, c ∈ List.intercalate [','] items →
    c = ',' ∨ ∃ p ∈ items, c ∈ p := by
  intro items
  induction items with
  | nil => intro h; simp [List.intercalate] at h
  | cons x t ih =>
    intro h
    cases t with
    | nil =>
      rw [show List.intercalate [','] [x] = x from by
        simp [List.intercalate]] at h
      exact Or.inr ⟨x, by simp, h⟩
    | cons y t2 =>
      rw [intercalate_cons_cons [','] x y t2] at h
      rcases List.mem_append.mp h with h2 | h2
      · rcases List.mem_append.mp h2 with h3 | h3
        · exact Or.inr ⟨x, by simp, h3⟩
        · exact Or.inl (by simpa using h3)
      · rcases ih h2 with h3 | ⟨p, hp, hcp⟩
        · exact Or.inl h3
        · exact Or.inr ⟨p, by simp [hp], hcp⟩

theorem intercalate_isEmpty_false (items : List Str)
    (hne : items ≠ []) (hhd : ∀ p ∈ items, p ≠ []) :
    (List.intercalate [','] items).isEmpty = false := by
  cases items with
  | nil => exact absurd rfl hne
  | cons x t =>
    cases t with
    | nil =>
      rw [show List.intercalate [','] [x] = x from by
        simp [List.intercalate]]
      cases hx : x with
      | nil => exact absurd hx (hhd x (by simp))
      | cons _ _ => rfl
    | cons y t2 =>
      rw [intercalate_cons_cons [','] x y t2]
      cases hx : x with
      | nil => exact absurd hx (hhd x (by simp))
      | cons _ _ => rfl

theorem render_eq_clauses (f : File) :
    File.render f = (if f.is_package then ['-'] else [])
      ++ f.src ++ flattenClauses (fileClauses f) := by
  unfold File.render fileClauses flattenClauses
  cases hdst : f.has_dst
  all_goals cases hh : f.hash
  all_goals cases hfh : f.fixup_hash
  all_goals simp [List.map_append, List.flatten_append, List.map_map,
    Function.comp_def, List.append_assoc]

theorem render_eq_of_fields (f g : File)
    (h1 : g.is_package = f.is_package) (h2 : g.src = f.src)
    (h3 : g.has_dst = f.has_dst) (h4 : f.has_dst = true → g.dst = f.dst)
    (h5 : g.args = f.args) (h6 : g.hash = f.hash)
    (h7 : g.fixup_hash = f.fixup_hash) :
    File.render g = File.render f := by
  unfold File.render
  rw [h1, h2, h3, h5, h6, h7]
  by_cases hd : f.has_dst = true
  · rw [h4 hd]
  · rw [show f.has_dst = false from by simpa using hd]
    simp

theorem foldlM_arg_clauses :
    ∀ (entries : List (FileArgs × ArgVal)) (f : File) (hs : List Str),
    (∀ kv ∈ entries, argEntryOK kv) →
    (entries.map Prod.fst).Nodup →
    (∀ kv ∈ entries, dictGet f.args kv.1 = none) →
    List.foldlM File.procExtra (f, hs)
        (entries.map (fun kv => (';', argName kv.1 ++ renderVal kv.2)))
      = Except.ok ({ f with args := f.args ++ entries }, hs) := by
  intro entries
  induction entries with
  | nil =>
    intro f hs _ _ _
    rw [List.map_nil, List.foldlM_nil, List.append_nil]
    rfl
  | cons kv entries2 ih =>
    intro f hs hok hnd hnone
    obtain ⟨k, v⟩ := kv
    rw [List.map_cons, List.nodup_cons] at hnd
    obtain ⟨hkni, hnd2⟩ := hnd
    rw [List.map_cons, List.foldlM_cons]
    have hkwf := argName_wf k
    have hknone : dictGet f.args k = none := hnone (k, v) (by simp)
    have hne : ¬ (argName k ++ renderVal v) = [] := by simp [hkwf.1]
    have hnone2 : ∀ (w : FileArgs × ArgVal) (X : ArgVal), w ∈ entries2 →
        dictGet (f.args ++ [(k, X)]) w.1 = none := by
      intro w X hw
      rw [dictGet_append_ne f.args k w.1 X
        (fun hc => hkni (by rw [hc]; exact List.mem_map.mpr ⟨w, hw, rfl⟩))]
      exact hnone w (by simp [hw])
    cases v with
    | vTrue =>
      have hty : argTypeOf k = ArgTy.flag := hok (k, ArgVal.vTrue) (by simp)
      rw [procExtra_semicolon_noval f hs _ (argName k) hne
          (by rw [show renderVal ArgVal.vTrue = [] from rfl, List.append_nil]
              exact splitOnceChar_none '=' (argName k)
                (fun c hc => ((hkwf.2 c hc).2.2))),
        set_arg_flag_noval f k hty,
        dictSet_append_of_none f.args k ArgVal.vTrue hknone]
      simp only [except_bind_ok, except_pure_eq_ok]
      rw [ih { f with args := f.args ++ [(k, ArgVal.vTrue)] } hs
        (fun w hw => hok w (by simp [hw])) hnd2
        (fun w hw => hnone2 w ArgVal.vTrue hw)]
      simp [List.append_assoc]
    | vStr s =>
      have hentry : argTypeOf k = ArgTy.scalar ∧ tokOK s :=
        hok (k, ArgVal.vStr s) (by simp)
      have hse : s.isEmpty = false := by
        cases hs2 : s with
        | nil => exact absurd hs2 hentry.2.1
        | cons _ _ => rfl
      rw [procExtra_semicolon_val f hs _ (argName k) s hne
          (by rw [show renderVal (ArgVal.vStr s) = '=' :: s from rfl]
              exact splitOnceChar_append '=' (argName k) s
                (fun c hc => ((hkwf.2 c hc).2.2))),
        set_arg_scalar_val f k s hentry.1 hse,
        dictSet_append_of_none f.args k (ArgVal.vStr s) hknone]
      simp only [except_bind_ok, except_pure_eq_ok]
      rw [ih { f with args := f.args ++ [(k, ArgVal.vStr s)] } hs
        (fun w hw => hok w (by simp [hw])) hnd2
        (fun w hw => hnone2 w (ArgVal.vStr s) hw)]
      simp [List.append_assoc]
    | vList items =>
      have hentry : argTypeOf k = ArgTy.listTy ∧ items ≠ [] ∧
          ∀ p ∈ items, p ≠ [] ∧ ∀ c ∈ p,
            isSep c = false ∧ pyIsSpace c = false ∧ c ≠ ',' :=
        hok (k, ArgVal.vList items) (by simp)
      rw [procExtra_semicolon_val f hs _ (argName k)
          (List.intercalate [','] items) hne
          (by rw [show renderVal (ArgVal.vList items)
                = '=' :: List.intercalate [','] items from rfl]
              exact splitOnceChar_append '=' (argName k) _
                (fun c hc => ((hkwf.2 c hc).2.2))),
        set_arg_list_val f k _ hentry.1
          (intercalate_isEmpty_false items hentry.2.1
            (fun p hp => (hentry.2.2 p hp).1)) hknone,
        splitOnChar_intercalate items
          (fun p hp c hcp => ((hentry.2.2 p hp).2 c hcp).2.2) hentry.2.1]
      simp only [except_bind_ok, except_pure_eq_ok]
      rw [ih { f with args := f.args ++ [(k, ArgVal.vList items)] } hs
        (fun w hw => hok w (by simp [hw])) hnd2
        (fun w hw => hnone2 w (ArgVal.vList items) hw)]
      simp [List.append_assoc]

theorem foldlM_pipe_clauses :
    ∀ (hlist : List Str) (f : File) (hs : List Str),
    (∀ h ∈ hlist, ¬ h = []) →
    List.foldlM File.procExtra (f, hs) (hlist.map (fun h => ('|', h)))
      = Except.ok (f, hs ++ hlist) := by
  intro hlist
  induction hlist with
  | nil =>
    intro f hs _
    rw [List.map_nil, List.foldlM_nil, List.append_nil]
    rfl
  | cons h t ih =>
    intro f hs hne
    rw [List.map_cons, List.foldlM_cons, procExtra_pipe f hs h
      (hne h (by simp)), except_bind_ok,
      ih f (hs ++ [h]) (fun x hx => hne x (by simp [hx]))]
    simp [List.append_assoc]

theorem fileClauses_wf (f : File) (hc : CanonicalFile f) :
    ∀ p ∈ fileClauses f, isSep p.1 = true ∧ p.2 ≠ [] ∧
      ∀ c ∈ p.2, isSep c = false ∧ pyIsSpace c = false := by
  obtain ⟨hsrc, hpkg, hdst, hnodup, hargs, hhash, hfix⟩ := hc
  intro p hp
  unfold fileClauses at hp
  rcases List.mem_append.mp hp with hp1 | hpD
  · rcases List.mem_append.mp hp1 with hp2 | hpC
    · rcases List.mem_append.mp hp2 with hpA | hpB
      · cases hd : f.has_dst with
        | false =>
          rw [hd] at hpA
          simp at hpA
        | true =>
          rw [hd] at hpA
          simp at hpA
          subst hpA
          obtain ⟨hdk, _⟩ := hdst hd
          exact ⟨rfl, hdk.1, hdk.2⟩
      · obtain ⟨kv, hkv, hpe⟩ := List.mem_map.mp hpB
        subst hpe
        obtain ⟨k, v⟩ := kv
        have hkwf := argName_wf k
        refine ⟨rfl, by simp [hkwf.1], ?_⟩
        intro c hcc
        rcases List.mem_append.mp hcc with hcn | hcv
        · exact ⟨(hkwf.2 c hcn).1, (hkwf.2 c hcn).2.1⟩
        · cases v with
          | vTrue => simp [renderVal] at hcv
          | vStr s =>
            have hentry : argTypeOf k = ArgTy.scalar ∧ tokOK s :=
              hargs (k, ArgVal.vStr s) hkv
            rcases List.mem_cons.mp hcv with rfl | hcs
            · exact ⟨by decide, by decide⟩
            · exact ⟨(hentry.2.2 c hcs).1, (hentry.2.2 c hcs).2⟩
          | vList items =>
            have hentry : argTypeOf k = ArgTy.listTy ∧ items ≠ [] ∧
                ∀ q ∈ items, q ≠ [] ∧ ∀ c2 ∈ q,
                  isSep c2 = false ∧ pyIsSpace c2 = false ∧ c2 ≠ ',' :=
              hargs (k, ArgVal.vList items) hkv
            rcases List.mem_cons.mp hcv with rfl | hci
            · exact ⟨by decide, by decide⟩
            · rcases mem_intercalate_comma items hci with rfl | ⟨q, hq, hcq⟩
              · exact ⟨by decide, by decide⟩
              · exact ⟨((hentry.2.2 q hq).2 c hcq).1,
                  ((hentry.2.2 q hq).2 c hcq).2.1⟩
    · cases hh : f.hash with
      | none =>
        rw [hh] at hpC
        simp at hpC
      | some h =>
        rw [hh] at hpC
        simp at hpC
        subst hpC
        have ht := hhash h hh
        exact ⟨rfl, ht.1, ht.2⟩
  · cases hfh : f.fixup_hash with
    | none =>
      rw [hfh] at hpD
      simp at hpD
    | some h =>
      rw [hfh] at hpD
      simp at hpD
      subst hpD
      have ht := (hfix h hfh).1
      exact ⟨rfl, ht.1, ht.2⟩

theorem parse_extras_canonical (f : File) (hc : CanonicalFile f) :
    File.parse_extras
        { is_package := f.is_package, src := f.src, dst := f.src,
          has_dst := false, args := [], hash := none, fixup_hash := none,
          parts := [], partition := [], basename := [], dirname := [],
          root := [], ext := [] }
        (f.src ++ flattenClauses (fileClauses f))
      = Except.ok
          { is_package := f.is_package, src := f.src,
            dst := if f.has_dst then f.dst else f.src,
            has_dst := f.has_dst, args := f.args, hash := f.hash,
            fixup_hash := f.fixup_hash, parts := [], partition := [],
            basename := [], dirname := [], root := [], ext := [] } := by
  have hwf0 := fileClauses_wf f hc
  obtain ⟨hsrc, hpkg, hdst, hnodup, hargs, hhash, hfix⟩ := hc
  have hwf : ∀ p ∈ fileClauses f, isSep p.1 = true ∧ p.2 ≠ [] ∧
      ∀ c ∈ p.2, isSep c = false :=
    fun p hp => ⟨(hwf0 p hp).1, (hwf0 p hp).2.1,
      fun c hcc => ((hwf0 p hp).2.2 c hcc).1⟩
  unfold File.parse_extras
  rw [extrasScan_append_nosep f.src _ (fun c hcc => (hsrc.2 c hcc).1),
    extrasScan_flatten (fileClauses f) hwf]
  cases hd : f.has_dst with
  | false =>
    cases hh : f.hash with
    | none =>
      cases hfh : f.fixup_hash with
      | some fh => exact absurd hh ((hfix fh hfh).2)
      | none =>
        have hfc : fileClauses f
            = ([] : List (Char × Str))
              ++ f.args.map (fun kv => (';', argName kv.1 ++ renderVal kv.2))
              ++ [] ++ [] := by
          unfold fileClauses
          rw [hd, hh, hfh]
          rfl
        rw [hfc, List.foldlM_append, List.foldlM_append, List.foldlM_append,
          List.foldlM_nil]
        simp only [except_pure_eq_ok, except_bind_ok]
        rw [foldlM_arg_clauses f.args
          { is_package := f.is_package, src := f.src, dst := f.src,
            has_dst := false, args := [], hash := none, fixup_hash := none,
            parts := [], partition := [], basename := [], dirname := [],
            root := [], ext := [] } [] hargs hnodup (fun kv _ => rfl)]
        simp only [except_bind_ok]
        rw [List.foldlM_nil]
        simp only [except_pure_eq_ok, except_bind_ok]
        rw [List.foldlM_nil]
        simp only [except_pure_eq_ok, except_bind_ok]
        rfl
    | some h =>
      have hht := hhash h hh
      cases hfh : f.fixup_hash with
      | none =>
        have hfc : fileClauses f
            = ([] : List (Char × Str))
              ++ f.args.map (fun kv => (';', argName kv.1 ++ renderVal kv.2))
              ++ [('|', h)] ++ [] := by
          unfold fileClauses
          rw [hd, hh, hfh]
          rfl
        rw [hfc, List.foldlM_append, List.foldlM_append, List.foldlM_append,
          List.foldlM_nil]
        simp only [except_pure_eq_ok, except_bind_ok]
        rw [foldlM_arg_clauses f.args
          { is_package := f.is_package, src := f.src, dst := f.src,
            has_dst := false, args := [], hash := none, fixup_hash := none,
            parts := [], partition := [], basename := [], dirname := [],
            root := [], ext := [] } [] hargs hnodup (fun kv _ => rfl)]
        simp only [except_bind_ok]
        rw [List.foldlM_cons, procExtra_pipe _ [] h hht.1]
        simp only [except_bind_ok]
        rw [List.foldlM_nil]
        simp only [except_pure_eq_ok, except_bind_ok]
        rw [List.foldlM_nil]
        simp only [except_pure_eq_ok, except_bind_ok]
        rfl
      | some fh =>
        have hft := (hfix fh hfh).1
        have hfc : fileClauses f
            = ([] : List (Char × Str))
              ++ f.args.map (fun kv => (';', argName kv.1 ++ renderVal kv.2))
              ++ [('|', h)] ++ [('|', fh)] := by
          unfold fileClauses
          rw [hd, hh, hfh]
          rfl
        rw [hfc, List.foldlM_append, List.foldlM_append, List.foldlM_append,
          List.foldlM_nil]
        simp only [except_pure_eq_ok, except_bind_ok]
        rw [foldlM_arg_clauses f.args
          { is_package := f.is_package, src := f.src, dst := f.src,
            has_dst := false, args := [], hash := none, fixup_hash := none,
            parts := [], partition := [], basename := [], dirname := [],
            root := [], ext := [] } [] hargs hnodup (fun kv _ => rfl)]
        simp only [except_bind_ok]
        rw [List.foldlM_cons, procExtra_pipe _ [] h hht.1]
        simp only [except_bind_ok]
        rw [List.foldlM_nil]
        simp only [except_pure_eq_ok, except_bind_ok]
        rw [List.foldlM_cons, procExtra_pipe _ ([] ++ [h]) fh hft.1]
        simp only [except_bind_ok]
        rw [List.foldlM_nil]
        simp only [except_pure_eq_ok, except_bind_ok]
        rfl
  | true =>
    have hsd : File.set_dst
        { is_package := f.is_package, src := f.src, dst := f.src,
          has_dst := false, args := [], hash := none, fixup_hash := none,
          parts := [], partition := [], basename := [], dirname := [],
          root := [], ext := [] } (some f.dst)
        = { is_package := f.is_package, src := f.src, dst := f.dst,
            has_dst := true, args := [], hash := none, fixup_hash := none,
            parts := [], partition := [], basename := [], dirname := [],
            root := [], ext := [] } := by
      simp only [File.set_dst]
      rw [if_neg (hdst hd).2]
    cases hh : f.hash with
    | none =>
      cases hfh : f.fixup_hash with
      | some fh => exact absurd hh ((hfix fh hfh).2)
      | none =>
        have hfc : fileClauses f
            = [((':' : Char), f.dst)]
              ++ f.args.map (fun kv => (';', argName kv.1 ++ renderVal kv.2))
              ++ [] ++ [] := by
          unfold fileClauses
          rw [hd, hh, hfh]
          rfl
        rw [hfc, List.foldlM_append, List.foldlM_append, List.foldlM_append,
          List.foldlM_cons, procExtra_colon _ [] f.dst (hdst hd).1.1, hsd]
        simp only [except_bind_ok]
        rw [List.foldlM_nil]
        simp only [except_pure_eq_ok, except_bind_ok]
        rw [foldlM_arg_clauses f.args
          { is_package := f.is_package, src := f.src, dst := f.dst,
            has_dst := true, args := [], hash := none, fixup_hash := none,
            parts := [], partition := [], basename := [], dirname := [],
            root := [], ext := [] } [] hargs hnodup (fun kv _ => rfl)]
        simp only [except_bind_ok]
        rw [List.foldlM_nil]
        simp only [except_pure_eq_ok, except_bind_ok]
        rw [List.foldlM_nil]
        simp only [except_pure_eq_ok, except_bind_ok]
        rfl
    | some h =>
      have hht := hhash h hh
      cases hfh : f.fixup_hash with
      | none =>
        have hfc : fileClauses f
            = [((':' : Char), f.dst)]
              ++ f.args.map (fun kv => (';', argName kv.1 ++ renderVal kv.2))
              ++ [('|', h)] ++ [] := by
          unfold fileClauses
          rw [hd, hh, hfh]
          rfl
        rw [hfc, List.foldlM_append, List.foldlM_append, List.foldlM_append,
          List.foldlM_cons, procExtra_colon _ [] f.dst (hdst hd).1.1, hsd]
        simp only [except_bind_ok]
        rw [List.foldlM_nil]
        simp only [except_pure_eq_ok, except_bind_ok]
        rw [foldlM_arg_clauses f.args
          { is_package := f.is_package, src := f.src, dst := f.dst,
            has_dst := true, args := [], hash := none, fixup_hash := none,
            parts := [], partition := [], basename := [], dirname := [],
            root := [], ext := [] } [] hargs hnodup (fun kv _ => rfl)]
        simp only [except_bind_ok]
        rw [List.foldlM_cons, procExtra_pipe _ [] h hht.1]
        simp only [except_bind_ok]
        rw [List.foldlM_nil]
        simp only [except_pure_eq_ok, except_bind_ok]
        rw [List.foldlM_nil]
        simp only [except_pure_eq_ok, except_bind_ok]
        rfl
      | some fh =>
        have hft := (hfix fh hfh).1
        have hfc : fileClauses f
            = [((':' : Char), f.dst)]
              ++ f.args.map (fun kv => (';', argName kv.1 ++ renderVal kv.2))
              ++ [('|', h)] ++ [('|', fh)] := by
          unfold fileClauses
          rw [hd, hh, hfh]
          rfl
        rw [hfc, List.foldlM_append, List.foldlM_append, List.foldlM_append,
          List.foldlM_cons, procExtra_colon _ [] f.dst (hdst hd).1.1, hsd]
        simp only [except_bind_ok]
        rw [List.foldlM_nil]
        simp only [except_pure_eq_ok, except_bind_ok]
        rw [foldlM_arg_clauses f.args
          { is_package := f.is_package, src := f.src, dst := f.dst,
            has_dst := true, args := [], hash := none, fixup_hash := none,
            parts := [], partition := [], basename := [], dirname := [],
            root := [], ext := [] } [] hargs hnodup (fun kv _ => rfl)]
        simp only [except_bind_ok]
        rw [List.foldlM_cons, procExtra_pipe _ [] h hht.1]
        simp only [except_bind_ok]
        rw [List.foldlM_nil]
        simp only [except_pure_eq_ok, except_bind_ok]
        rw [List.foldlM_cons, procExtra_pipe _ ([] ++ [h]) fh hft.1]
        simp only [except_bind_ok]
        rw [List.foldlM_nil]
        simp only [except_pure_eq_ok, except_bind_ok]
        rfl

theorem mkFile_map_render (isPkg : Bool) (src : Str) (cl : List (Char × Str))
    (g : File) (hsrc : tokOK src)
    (hcl : ∀ p ∈ cl, isSep p.1 = true ∧ p.2 ≠ [] ∧
        ∀ c ∈ p.2, isSep c = false ∧ pyIsSpace c = false)
    (hhd : isPkg = false → src.head? ≠ some '-')
    (hpe : File.parse_extras
        { is_package := isPkg, src := src, dst := src, has_dst := false,
          args := [], hash := none, fixup_hash := none, parts := [],
          partition := [], basename := [], dirname := [], root := [],
          ext := [] } (src ++ flattenClauses cl) = Except.ok g) :
    (mkFile ((if isPkg then ['-'] else []) ++ src ++ flattenClauses cl)).map
        File.render = Except.ok (File.render g) := by
  obtain ⟨hne, hchars⟩ := hsrc
  cases src with
  | nil => exact absurd rfl hne
  | cons s0 srest =>
    have hnosep : ∀ c ∈ s0 :: srest, isSep c = false :=
      fun c hc => (hchars c hc).1
    have hflat_nospace : ∀ c ∈ flattenClauses cl, pyIsSpace c = false := by
      intro c hc
      obtain ⟨p, hp, hcp⟩ := mem_flattenClauses hc
      rcases hcp with rfl | hc2
      · exact sep_not_space _ (hcl p hp).1
      · exact ((hcl p hp).2.2 c hc2).2
    have htw : List.takeWhile (fun c => !isSep c)
        (s0 :: (srest ++ flattenClauses cl)) = s0 :: srest :=
      takeWhile_nosep_clauses s0 srest cl hnosep (fun p hp => (hcl p hp).1)
    cases isPkg with
    | false =>
      have hs0 : ¬ s0 = '-' := fun hcq => (hhd rfl) (by simp [hcq])
      have hall : ∀ c ∈ (s0 :: srest) ++ flattenClauses cl,
          pyIsSpace c = false := by
        intro c hc
        rcases List.mem_append.mp hc with h | h
        · exact (hchars c h).2
        · exact hflat_nospace c h
      simp only [Bool.false_eq_true, if_false, List.nil_append]
      unfold mkFile
      rw [pyStrip_eq_self _ hall]
      simp only [List.cons_append]
      rw [if_neg hs0]
      simp only [pure_bind]
      rw [htw]
      rw [if_neg (show ¬ (s0 :: srest = []) from by simp)]
      rw [show s0 :: (srest ++ flattenClauses cl)
          = (s0 :: srest) ++ flattenClauses cl from rfl, hpe]
      rfl
    | true =>
      have hall : ∀ c ∈ ['-'] ++ (s0 :: srest) ++ flattenClauses cl,
          pyIsSpace c = false := by
        intro c hc
        rcases List.mem_append.mp hc with h | h
        · rcases List.mem_append.mp h with h2 | h2
          · rcases List.mem_singleton.mp h2 with rfl
            decide
          · exact (hchars c h2).2
        · exact hflat_nospace c h
      simp only [eq_self_iff_true, if_true]
      unfold mkFile
      rw [pyStrip_eq_self _ hall]
      simp only [List.cons_append, List.nil_append]
      rw [if_pos trivial]
      simp only [pure_bind]
      rw [htw]
      rw [if_neg (show ¬ (s0 :: srest = []) from by simp)]
      rw [show s0 :: (srest ++ flattenClauses cl)
          = (s0 :: srest) ++ flattenClauses cl from rfl, hpe]
      rfl

/-
  Claim theorems.
-/

/-- C3 (amended): rendering a parsed directive reproduces the directive for
every canonical directive — one whose tokens are nonempty and free of
separators and whitespace, whose explicit destination (if any) differs from
the source, and in which each argument name appears in exactly one clause —
so render∘parse is the identity on rendered canonical files. -/
theorem c3_round_trip_canonical (f : File) (hc : CanonicalFile f) :
    (mkFile (File.render f)).map File.render
      = Except.ok (File.render f) := by
  have hwf := fileClauses_wf f hc
  have hpe := parse_extras_canonical f hc
  have h1 := mkFile_map_render f.is_package f.src (fileClauses f)
      { is_package := f.is_package, src := f.src,
        dst := if f.has_dst then f.dst else f.src,
        has_dst := f.has_dst, args := f.args, hash := f.hash,
        fixup_hash := f.fixup_hash, parts := [], partition := [],
        basename := [], dirname := [], root := [], ext := [] }
      hc.1 hwf hc.2.1 hpe
  have h2 : File.render
      { is_package := f.is_package, src := f.src,
        dst := if f.has_dst then f.dst else f.src,
        has_dst := f.has_dst, args := f.args, hash := f.hash,
        fixup_hash := f.fixup_hash, parts := [], partition := [],
        basename := [], dirname := [], root := [], ext := [] }
      = File.render f := by
    refine render_eq_of_fields f _ rfl rfl rfl ?_ rfl rfl rfl
    intro hd
    simp [hd]
  conv_lhs => rw [render_eq_clauses f]
  rw [h1, h2]

/-- Witness for C3: the canonical directive `-a/b.apk:v/b.apk;MODULE=m|aa`
(package marker, explicit distinct destination, one scalar argument, one
hash) round-trips through parse and render. -/
theorem c3_round_trip_canonical_witness :
    File.render apkCanonical = "-a/b.apk:v/b.apk;MODULE=m|aa".data
    ∧ (mkFile "-a/b.apk:v/b.apk;MODULE=m|aa".data).map File.render
        = Except.ok "-a/b.apk:v/b.apk;MODULE=m|aa".data := by
  have hr : File.render apkCanonical
      = "-a/b.apk:v/b.apk;MODULE=m|aa".data := by decide
  refine ⟨hr, ?_⟩
  have hcanon : CanonicalFile apkCanonical := by
    refine ⟨⟨by decide, by decide⟩, ?_, ?_, by decide, ?_, ?_, ?_⟩
    · intro hcq
      cases hcq
    · intro _
      exact ⟨⟨by decide, by decide⟩, by decide⟩
    · intro kv hkv
      rcases List.mem_singleton.mp hkv with rfl
      exact ⟨by decide, by decide, by decide⟩
    · intro h2 hh
      cases hh
      exact ⟨by decide, by decide⟩
    · intro h2 hh
      cases hh
  have h := c3_round_trip_canonical apkCanonical hcanon
  rw [hr] at h
  exact h

/-- C2 (amended): for a directive whose source token is clean and that
carries one argument clause, supplying a value for a flag-typed argument
raises `ValueError`; omitting the value for a list-typed argument aborts
with `AssertionError`; and omitting the value for a scalar-typed argument
raises nothing — parsing succeeds and silently stores the flag literal
`True` as the argument's value. -/
theorem c2_arg_clause_rules (k : FileArgs) (src : Str)
    (hsrc : tokOK src) (hhd : src.head? ≠ some '-') :
    (argTypeOf k = ArgTy.flag →
      mkFile (src ++ ';' :: (argName k ++ '=' :: ['x']))
        = Except.error PyErr.valueError)
    ∧ (argTypeOf k = ArgTy.listTy →
      mkFile (src ++ ';' :: argName k)
        = Except.error PyErr.assertionError)
    ∧ (argTypeOf k = ArgTy.scalar →
      (mkFile (src ++ ';' :: argName k)).map File.args
        = Except.ok [(k, ArgVal.vTrue)]) := by
  obtain ⟨hne, hchars⟩ := hsrc
  obtain ⟨hkne, hkchars⟩ := argName_wf k
  cases src with
  | nil => exact absurd rfl hne
  | cons s0 srest =>
    have hs0 : ¬ s0 = '-' := fun hc => hhd (by simp [hc])
    have hnosep : ∀ c ∈ s0 :: srest, isSep c = false :=
      fun c hc => (hchars c hc).1
    have hnospace : ∀ c ∈ s0 :: srest, pyIsSpace c = false :=
      fun c hc => (hchars c hc).2
    refine ⟨?_, ?_, ?_⟩
    · intro hk
      have htc : ∀ c ∈ argName k ++ '=' :: ['x'],
          isSep c = false ∧ pyIsSpace c = false := by
        intro c hc
        rcases List.mem_append.mp hc with h | h
        · exact ⟨(hkchars c h).1, (hkchars c h).2.1⟩
        · rcases List.mem_cons.mp h with rfl | h2
          · exact ⟨by decide, by decide⟩
          · rcases List.mem_singleton.mp h2 with rfl
            exact ⟨by decide, by decide⟩
      have htne : ¬ (argName k ++ '=' :: ['x']) = [] := by simp
      have hall : ∀ c ∈ (s0 :: srest) ++ ';' :: (argName k ++ '=' :: ['x']),
          pyIsSpace c = false := by
        intro c hc
        rcases List.mem_append.mp hc with h | h
        · exact hnospace c h
        · rcases List.mem_cons.mp h with rfl | h2
          · decide
          · exact (htc c h2).2
      have htw : List.takeWhile (fun c => !isSep c)
          (s0 :: (srest ++ ';' :: (argName k ++ '=' :: ['x'])))
            = s0 :: srest := by
        simpa only [List.cons_append] using
          takeWhile_nosep_append (s0 :: srest) ';'
            (argName k ++ '=' :: ['x']) hnosep (by decide)
      have hscan : extrasScan
          (s0 :: (srest ++ ';' :: (argName k ++ '=' :: ['x'])))
            = extrasScan (';' :: (argName k ++ '=' :: ['x'])) := by
        simpa only [List.cons_append] using
          extrasScan_append_nosep (s0 :: srest)
            (';' :: (argName k ++ '=' :: ['x'])) hnosep
      unfold mkFile File.parse_extras
      rw [pyStrip_eq_self _ hall]
      simp only [List.cons_append]
      rw [if_neg hs0]
      simp only [pure_bind]
      rw [htw]
      rw [if_neg (show ¬ (s0 :: srest = []) from by simp)]
      rw [hscan,
        show extrasScan (';' :: (argName k ++ '=' :: ['x']))
          = scanTok ';' [] (argName k ++ '=' :: ['x']) from rfl,
        scanTok_nosep_all (argName k ++ '=' :: ['x'])
          (fun c hc => (htc c hc).1) htne ';',
        List.foldlM_cons,
        procExtra_semicolon_val _ [] _ (argName k) ['x'] htne
          (splitOnceChar_append '=' (argName k) ['x']
            (fun c hc => (hkchars c hc).2.2)),
        set_arg_flag_val _ k ['x'] hk]
      rfl
    · intro hk
      have htc : ∀ c ∈ argName k, isSep c = false ∧ pyIsSpace c = false :=
        fun c hc => ⟨(hkchars c hc).1, (hkchars c hc).2.1⟩
      have hall : ∀ c ∈ (s0 :: srest) ++ ';' :: argName k,
          pyIsSpace c = false := by
        intro c hc
        rcases List.mem_append.mp hc with h | h
        · exact hnospace c h
        · rcases List.mem_cons.mp h with rfl | h2
          · decide
          · exact (htc c h2).2
      have htw : List.takeWhile (fun c => !isSep c)
          (s0 :: (srest ++ ';' :: argName k)) = s0 :: srest := by
        simpa only [List.cons_append] using
          takeWhile_nosep_append (s0 :: srest) ';' (argName k) hnosep
            (by decide)
      have hscan : extrasScan (s0 :: (srest ++ ';' :: argName k))
          = extrasScan (';' :: argName k) := by
        simpa only [List.cons_append] using
          extrasScan_append_nosep (s0 :: srest) (';' :: argName k) hnosep
      unfold mkFile File.parse_extras
      rw [pyStrip_eq_self _ hall]
      simp only [List.cons_append]
      rw [if_neg hs0]
      simp only [pure_bind]
      rw [htw]
      rw [if_neg (show ¬ (s0 :: srest = []) from by simp)]
      rw [hscan,
        show extrasScan (';' :: argName k)
          = scanTok ';' [] (argName k) from rfl,
        scanTok_nosep_all (argName k) (fun c hc => (htc c hc).1) hkne ';',
        List.foldlM_cons,
        procExtra_semicolon_noval _ [] _ (argName k) hkne
          (splitOnceChar_none '=' (argName k)
            (fun c hc => (hkchars c hc).2.2)),
        set_arg_list_noval _ k hk]
      rfl
    · intro hk
      have htc : ∀ c ∈ argName k, isSep c = false ∧ pyIsSpace c = false :=
        fun c hc => ⟨(hkchars c hc).1, (hkchars c hc).2.1⟩
      have hall : ∀ c ∈ (s0 :: srest) ++ ';' :: argName k,
          pyIsSpace c = false := by
        intro c hc
        rcases List.mem_append.mp hc with h | h
        · exact hnospace c h
        · rcases List.mem_cons.mp h with rfl | h2
          · decide
          · exact (htc c h2).2
      have htw : List.takeWhile (fun c => !isSep c)
          (s0 :: (srest ++ ';' :: argName k)) = s0 :: srest := by
        simpa only [List.cons_append] using
          takeWhile_nosep_append (s0 :: srest) ';' (argName k) hnosep
            (by decide)
      have hscan : extrasScan (s0 :: (srest ++ ';' :: argName k))
          = extrasScan (';' :: argName k) := by
        simpa only [List.cons_append] using
          extrasScan_append_nosep (s0 :: srest) (';' :: argName k) hnosep
      unfold mkFile File.parse_extras
      rw [pyStrip_eq_self _ hall]
      simp only [List.cons_append]
      rw [if_neg hs0]
      simp only [pure_bind]
      rw [htw]
      rw [if_neg (show ¬ (s0 :: srest = []) from by simp)]
      rw [hscan,
        show extrasScan (';' :: argName k)
          = scanTok ';' [] (argName k) from rfl,
        scanTok_nosep_all (argName k) (fun c hc => (htc c hc).1) hkne ';',
        List.foldlM_cons,
        procExtra_semicolon_noval _ [] _ (argName k) hkne
          (splitOnceChar_none '=' (argName k)
            (fun c hc => (hkchars c hc).2.2)),
        set_arg_scalar_noval _ k hk]
      rfl

/-- Witness for C2 on concrete directives: `a;PRESIGNED=x` is a ValueError,
`a;OVERRIDES` is an AssertionError, and `a;MODULE` parses storing the
literal `True`. -/
theorem c2_arg_clause_rules_witness :
    mkFile "a;PRESIGNED=x".data = Except.error PyErr.valueError
    ∧ mkFile "a;OVERRIDES".data = Except.error PyErr.assertionError
    ∧ (mkFile "a;MODULE".data).map File.args
        = Except.ok [(FileArgs.MODULE, ArgVal.vTrue)] := by
  refine ⟨?_, ?_, ?_⟩
  · exact (c2_arg_clause_rules FileArgs.PRESIGNED "a".data
      (by exact ⟨by decide, by decide⟩) (by decide)).1 rfl
  · exact (c2_arg_clause_rules FileArgs.OVERRIDES "a".data
      (by exact ⟨by decide, by decide⟩) (by decide)).2.1 rfl
  · exact (c2_arg_clause_rules FileArgs.MODULE "a".data
      (by exact ⟨by decide, by decide⟩) (by decide)).2.2 rfl

/-- C5: after `CommonFileTree.common_files(A, B)` succeeds on well-formed
trees filtered to prefixes of equal depth, every destination path held by
both inputs has its merged entity lists in the result under the
prefix-stripped path and is nulled in (hence no longer yielded by) both
inputs; paths held by only one input keep their leaf in that input
unchanged; and the result holds nothing except those merged paths. -/
theorem c5_common_files (a b : FileTree)
    (hka : wfKeysEs a.tree = true) (hkb : wfKeysEs b.tree = true)
    (hna : wfNEEs a.tree = true) (hnb : wfNEEs b.tree = true)
    (hpa : wfPartsEs a.parts.length [] a.tree = true)
    (hpb : wfPartsEs a.parts.length [] b.tree = true)
    (out a2 b2 : FileTree)
    (hok : CommonFileTree.common_files a b = Except.ok (out, a2, b2)) :
    (∀ π fa fb, leafAt a.tree π = some fa → leafAt b.tree π = some fb →
        leafAt out.tree π = some (fa ++ fb)
        ∧ nodeAt a2.tree π = some FTNode.null
        ∧ nodeAt b2.tree π = some FTNode.null
        ∧ leafAt a2.tree π = none ∧ leafAt b2.tree π = none)
    ∧ (∀ π fa, leafAt a.tree π = some fa → leafAt b.tree π = none →
        leafAt a2.tree π = some fa)
    ∧ (∀ π fb, leafAt a.tree π = none → leafAt b.tree π = some fb →
        leafAt b2.tree π = some fb)
    ∧ (∀ ρ g, leafAt out.tree ρ = some g →
        ∃ π fa fb, leafAt a.tree π = some fa ∧ leafAt b.tree π = some fb
          ∧ ρ = π ∧ g = fa ++ fb) := by
  unfold CommonFileTree.common_files at hok
  by_cases hlen : a.parts.length = b.parts.length
  · rw [if_neg (show ¬ (a.parts.length ≠ b.parts.length) from
      fun hc => hc hlen)] at hok
    simp only at hok
    cases hrec : commonFilesAux a.parts.length [] a.tree b.tree with
    | error e => rw [hrec] at hok; cases hok
    | ok trip =>
      obtain ⟨o, x, y⟩ := trip
      rw [hrec, except_bind_ok] at hok
      cases hok
      obtain ⟨mA, mBa, mBb, mC, mD, mF, _, _, _, _⟩ :=
        cfa_main (esSize a.tree) a.parts.length [] [] a.tree b.tree o x y
          (Nat.le_refl _) hka hkb hna hnb hpa hpb hrec
      refine ⟨?_, ?_, ?_, ?_⟩
      · intro π fa fb hla hlb
        obtain ⟨h1, h2, h3⟩ := mA π fa fb hla hlb
        rw [List.nil_append, leafAt_empty] at h1
        simp only [Option.getD_none, List.nil_append] at h1
        exact ⟨h1, h2, h3, leafAt_eq_none_of_nodeAt_null x π h2,
          leafAt_eq_none_of_nodeAt_null y π h3⟩
      · intro π fa hla hlb
        exact mBa π fa hla hlb
      · intro π fb hla hlb
        exact mBb π fb hla hlb
      · intro ρ g hg
        have hg0 : leafAt o ρ = some g := hg
        have hs : (leafAt o ρ).isSome = true := by rw [hg0]; rfl
        rcases mF ρ hs with hfalse | ⟨π, fa, fb, p1, p2, p3⟩
        · rw [leafAt_empty] at hfalse
          cases hfalse
        · rw [List.nil_append] at p3
          subst p3
          obtain ⟨h1, _, _⟩ := mA ρ fa fb p1 p2
          rw [List.nil_append, leafAt_empty] at h1
          simp only [Option.getD_none, List.nil_append] at h1
          rw [hg0] at h1
          injection h1 with hgeq
          exact ⟨ρ, fa, fb, p1, p2, rfl, hgeq⟩
  · rw [if_pos hlen] at hok
    cases hok

/-- Witness for C5: on the concrete trees, `vendor/x` (held by both inputs)
is merged into the common tree and nulled in both inputs, while `vendor/y`
(held only by the second input) stays there unchanged. -/
theorem c5_common_files_witness :
    CommonFileTree.common_files c5A c5B
      = Except.ok
          (⟨[("x".data, FTNode.files [c5f1, c5f2])], ["vendor".data], true⟩,
            ⟨[("x".data, FTNode.null)], ["vendor".data], false⟩,
            ⟨[("x".data, FTNode.null), ("y".data, FTNode.files [c5f3])],
              ["vendor".data], false⟩)
    ∧ leafAt [("x".data, FTNode.files [c5f1, c5f2])] ["x".data]
        = some [c5f1, c5f2]
    ∧ nodeAt [("x".data, FTNode.null)] ["x".data] = some FTNode.null
    ∧ nodeAt [("x".data, FTNode.null), ("y".data, FTNode.files [c5f3])]
        ["x".data] = some FTNode.null
    ∧ leafAt [("x".data, FTNode.null), ("y".data, FTNode.files [c5f3])]
        ["y".data] = some [c5f3] := by
  have hok : CommonFileTree.common_files c5A c5B
      = Except.ok
          (⟨[("x".data, FTNode.files [c5f1, c5f2])], ["vendor".data], true⟩,
            ⟨[("x".data, FTNode.null)], ["vendor".data], false⟩,
            ⟨[("x".data, FTNode.null), ("y".data, FTNode.files [c5f3])],
              ["vendor".data], false⟩) := by
    simp +decide [CommonFileTree.common_files, commonFilesAux,
      addFilesCommon, addWithParts, setdefaultNode, dictGet, dictSet,
      c5A, c5B, c5f1, c5f2, c5f3, plainFile, splitOnChar]
    rfl
  obtain ⟨m1, m2, m3, m4⟩ :=
    c5_common_files c5A c5B
      (by simp +decide [c5A, wfKeysEs, wfKeysNode])
      (by simp +decide [c5B, wfKeysEs, wfKeysNode])
      (by simp +decide [c5A, wfNEEs, wfNENode])
      (by simp +decide [c5B, wfNEEs, wfNENode])
      (by simp +decide [c5A, wfPartsEs, wfPartsNode])
      (by simp +decide [c5A, c5B, wfPartsEs, wfPartsNode])
      ⟨[("x".data, FTNode.files [c5f1, c5f2])], ["vendor".data], true⟩
      ⟨[("x".data, FTNode.null)], ["vendor".data], false⟩
      ⟨[("x".data, FTNode.null), ("y".data, FTNode.files [c5f3])],
        ["vendor".data], false⟩
      hok
  obtain ⟨g1, g2, g3, _, _⟩ :=
    m1 ["x".data] [c5f1] [c5f2] (by rfl) (by rfl)
  exact ⟨hok, g1, g2, g3, m3 ["y".data] [c5f3] (by rfl) (by rfl)⟩

/-- C1: in the Pinned policy, for a file whose pinned and fixup hashes are
both recorded, whose materialized hash matches neither, with a configured
fixup pipeline, and whose post-fixup hash equals the recorded fixup hash,
the claim (and the code's own comment and green success print) say the file
is a success counted as copied; the code instead returns `False`, so the
single good file makes `process_module_files` report not-all-copied.  This
evaluates the embedded code at that failing input. -/
theorem c1_good_fixup_counted_as_failure :
    (mkFile "vendor/x|aa|bb".data).map
      (fun f => process_module_pinned_file ⟨["vendor/x".data]⟩
        ⟨false, true, [], "cc".data, "bb".data⟩ f)
    = Except.ok (false,
        [EngineAct.tryRestore, EngineAct.tryCopy,
         EngineAct.runFixup, EngineAct.printGreen])
    ∧ (mkFile "vendor/x|aa|bb".data).map
      (fun f => (process_module_files ⟨["vendor/x".data]⟩ false
        [(f, ⟨false, true, [], "cc".data, "bb".data⟩)]).1)
    = Except.ok false := by
  exact ⟨by decide, by decide⟩

/-- C2 counterexample: a scalar-typed argument clause with no `=value`
(`;MODULE`) does not raise any parse error; parsing succeeds and silently
stores the flag literal `True` as the argument value, because Python's
falsiness check `not v` does not reject `v = True`. -/
theorem c2_scalar_without_value_parses :
    (mkFile "a;MODULE".data).map File.args
    = Except.ok [(FileArgs.MODULE, ArgVal.vTrue)] := by
  decide

/-- C3 counterexample: rendering the parse of `a:a` yields `a` (the explicit
destination equal to the source is dropped, `set_dst` clears `has_dst`), and
rendering the parse of `v;OVERRIDES=a;OVERRIDES=b` merges the repeated
list-argument clauses into the single clause `v;OVERRIDES=a,b`; neither
equals the original directive, even modulo argument order. -/
theorem c3_round_trip_counterexample :
    (mkFile "a:a".data).map File.render = Except.ok "a".data
    ∧ "a".data ≠ "a:a".data
    ∧ (mkFile "v;OVERRIDES=a;OVERRIDES=b".data).map File.render
      = Except.ok "v;OVERRIDES=a,b".data
    ∧ "v;OVERRIDES=a,b".data ≠ "v;OVERRIDES=a;OVERRIDES=b".data := by
  exact ⟨by decide, by decide, by decide, by decide⟩

/-- C10: adding a file to a `SimpleFileList` whose destination equals an
already-stored file's destination silently replaces the earlier file: no
error can be raised, iteration afterwards yields exactly one file with that
destination, and `get_file` returns the most recently added file. -/
theorem c10_simple_file_list_replaces
    (l : SimpleFileList) (f1 f2 : File)
    (hw : sflWF l) (hd : f1.dst = f2.dst) :
    (sflValues (sflAdd (sflAdd l f1) f2)).countP
      (fun g => decide (g.dst = f2.dst)) = 1
    ∧ sflGet (sflAdd (sflAdd l f1) f2) f2.dst = some f2 := by
  have hset : sflAdd (sflAdd l f1) f2 = dictSet l f2.dst f2 := by
    simp [sflAdd, hd, dictSet_dictSet]
  constructor
  · rw [hset]
    obtain ⟨hkv, hnd⟩ := hw
    clear hset hd
    induction l with
    | nil => simp [dictSet, sflValues]
    | cons p rest ih =>
      obtain ⟨k0, v0⟩ := p
      rw [List.map_cons] at hnd
      by_cases h : k0 = f2.dst
      · subst h
        simp only [dictSet, if_pos rfl, sflValues, List.map_cons,
          List.countP_cons]
        have h0 : (rest.map Prod.snd).countP
            (fun g => decide (g.dst = f2.dst)) = 0 := by
          apply countP_values_eq_zero _ _ f2.dst
          · intro q hq hb
            simp only [decide_eq_true_eq] at hb
            exact (hkv q (by simp [hq])).trans hb
          · exact (List.nodup_cons.mp hnd).1
        simp [h0]
      · have hv0 : v0.dst = k0 := (hkv (k0, v0) (by simp)).symm
        simp only [dictSet, if_neg h, sflValues, List.map_cons,
          List.countP_cons]
        have hfalse : decide (v0.dst = f2.dst) = false := by
          simp [hv0, h]
        rw [hfalse]
        simp only [if_neg (by simp : ¬ (false = true)), Nat.add_zero]
        have ih2 := ih (fun q hq => hkv q (by simp [hq]))
          (List.nodup_cons.mp hnd).2
        simpa [sflValues] using ih2
  · rw [hset, sflGet, dictGet_dictSet_self]

/-- C10 witness: concrete two-file instance on an empty list. -/
theorem c10_simple_file_list_replaces_witness :
    (sflValues (sflAdd (sflAdd [] (plainFile "x".data none none))
        (plainFile "x".data (some "h".data) none))).countP
      (fun g => decide (g.dst = (plainFile "x".data (some "h".data) none).dst)) = 1
    ∧ sflGet (sflAdd (sflAdd [] (plainFile "x".data none none))
        (plainFile "x".data (some "h".data) none))
        (plainFile "x".data (some "h".data) none).dst
      = some (plainFile "x".data (some "h".data) none) :=
  c10_simple_file_list_replaces [] (plainFile "x".data none none)
    (plainFile "x".data (some "h".data) none)
    (by constructor <;> simp) (by rfl)

/-- C7: in the Pinned policy (file has a pinned hash, run not in adopt
mode), the engine first attempts the backup restore, attempts the live
source copy only when the restore fails, and whenever the materialized
content hash equals the recorded fixup hash it succeeds without running any
fixup pipeline step. -/
theorem c7_pinned_restore_first_and_skip_fixup
    (m : Module) (env : Env) (f : File) (h0 : Str)
    (hpin : f.hash = some h0) :
    process_module_files m false [(f, env)] = process_module_pinned_file m env f
    ∧ (process_module_pinned_file m env f).2.head? = some EngineAct.tryRestore
    ∧ (env.restoreOk = true →
        EngineAct.tryCopy ∉ (process_module_pinned_file m env f).2)
    ∧ (env.restoreOk = false →
        EngineAct.tryCopy ∈ (process_module_pinned_file m env f).2)
    ∧ (∀ fh, f.fixup_hash = some fh →
        (env.restoreOk = true ∨ env.copyOk = true) →
        fh = (if env.restoreOk then env.hashAfterRestore else env.hashAfterCopy) →
        (process_module_pinned_file m env f).1 = true
        ∧ EngineAct.runFixup ∉ (process_module_pinned_file m env f).2) := by
  obtain ⟨ro, co, hr, hc, pf⟩ := env
  refine ⟨by simp [process_module_files, hpin], ?_, ?_, ?_, ?_⟩
  · cases hfx : f.fixup_hash <;> cases ro <;> cases co <;>
      simp [process_module_pinned_file, hfx] <;> split_ifs <;> simp
  · intro hro
    subst hro
    cases hfx : f.fixup_hash <;> cases co <;>
      simp [process_module_pinned_file, hfx] <;> split_ifs <;> simp
  · intro hro
    subst hro
    cases hfx : f.fixup_hash <;> cases co <;>
      simp [process_module_pinned_file, hfx] <;> split_ifs <;> simp
  · intro fh hfh hor heq
    cases ro with
    | true =>
      simp only [if_pos rfl] at heq
      subst heq
      cases co <;> simp [process_module_pinned_file, hfh]
    | false =>
      have hco : co = true := by
        rcases hor with h | h
        · exact absurd h (by simp)
        · exact h
      subst hco
      simp only [Bool.false_eq_true, if_false] at heq
      subst heq
      simp [process_module_pinned_file, hfh]

/-- C7 witness: a file pinned with hash `aa` and fixup hash `bb`, restored
from backup with content hash `bb`: reconciliation succeeds without running
any fixup step, and the backup was tried first. -/
theorem c7_pinned_restore_first_and_skip_fixup_witness :
    (process_module_pinned_file ⟨[]⟩ ⟨true, false, "bb".data, [], []⟩
      (plainFile "x".data (some "aa".data) (some "bb".data))).1 = true
    ∧ EngineAct.runFixup ∉
      (process_module_pinned_file ⟨[]⟩ ⟨true, false, "bb".data, [], []⟩
        (plainFile "x".data (some "aa".data) (some "bb".data))).2 :=
  (c7_pinned_restore_first_and_skip_fixup ⟨[]⟩
      ⟨true, false, "bb".data, [], []⟩
      (plainFile "x".data (some "aa".data) (some "bb".data))
      "aa".data rfl).2.2.2.2 "bb".data rfl (Or.inl rfl) rfl

/-- C8: in kang (adopt) mode, a file successfully copied from the source
gets its pinned hash set to the pre-fixup content hash and its fixup hash
set to the post-fixup content hash when a fixup pipeline is configured (to
`None` otherwise); the file counts as successfully processed, and when the
two hashes coincide a warning is printed while still succeeding. -/
theorem c8_kang_records_both_hashes
    (m : Module) (env : Env) (f : File)
    (hcopy : env.copyOk = true) :
    (process_module_kanged_file m env f).1.hash = some env.hashAfterCopy
    ∧ (process_module_kanged_file m env f).1.fixup_hash
      = (if should_module_fixup_file m f then some env.postFixupHash else none)
    ∧ (process_module_kanged_file m env f).2.1 = true
    ∧ (should_module_fixup_file m f = true →
        env.hashAfterCopy = env.postFixupHash →
        EngineAct.printYellow ∈ (process_module_kanged_file m env f).2.2) := by
  obtain ⟨ro, co, hr, hc, pf⟩ := env
  simp only at hcopy
  subst hcopy
  by_cases hs : should_module_fixup_file m f = true
  · refine ⟨?_, ?_, ?_, ?_⟩ <;>
      simp [process_module_kanged_file, hs, File.set_hash,
        File.set_fixup_hash] <;>
      split_ifs <;> simp_all
  · rw [Bool.not_eq_true] at hs
    refine ⟨?_, ?_, ?_, ?_⟩ <;>
      simp [process_module_kanged_file, hs, File.set_hash,
        File.set_fixup_hash]

/-- C8 witness: kanging a file with a configured fixup whose fixup happens
to be a no-op (pre- and post-fixup hash both `hh`): both hashes recorded,
warning printed, still counted as processed. -/
theorem c8_kang_records_both_hashes_witness :
    (process_module_kanged_file ⟨["x".data]⟩ ⟨false, true, [], "hh".data, "hh".data⟩
      (plainFile "x".data none none)).1.hash = some "hh".data
    ∧ (process_module_kanged_file ⟨["x".data]⟩ ⟨false, true, [], "hh".data, "hh".data⟩
        (plainFile "x".data none none)).2.1 = true
    ∧ EngineAct.printYellow ∈
      (process_module_kanged_file ⟨["x".data]⟩ ⟨false, true, [], "hh".data, "hh".data⟩
        (plainFile "x".data none none)).2.2 := by
  have h := c8_kang_records_both_hashes ⟨["x".data]⟩
    ⟨false, true, [], "hh".data, "hh".data⟩ (plainFile "x".data none none) rfl
  exact ⟨h.1, h.2.2.1, h.2.2.2 (by decide) rfl⟩

/-- C9: package classification returns true exactly when the destination
contains the consecutive segments `etc/vintf/manifest`, or the extension is
`.apk`/`.jar`/`.apex`, or — only with check-elf enabled — the extension is
`.so` under a `lib` or `lib64` segment, or the path contains a `bin` segment
or the consecutive segments `lib/rfsa`; and a file that is both classified
as a package and explicitly marked with `-` is processed with a printed
warning and no error. -/
theorem c9_package_classification_and_warning :
    (∀ (fl : FileList) (f : File),
      fl.is_file_package f = true ↔ specIsPackage fl.check_elf f)
    ∧ (∀ (fl : FileList) (f : File) (sec : Option Str) (t2 : FileTree),
      fl.is_file_package f = true → f.is_package = true →
      fl.package_files.add f = Except.ok t2 →
      ∃ fl2, fl.add_file f sec = Except.ok (fl2, [FLWarning.alreadyPackage])) := by
  constructor
  · intro fl f
    have hm := contains_path_parts_iff f MANIFEST_PARTS
    have hlib := contains_path_parts_iff f LIB_PARTS
    have hlib64 := contains_path_parts_iff f LIB64_PARTS
    have hbin := contains_path_parts_iff f BIN_PARTS
    have hrfsa := contains_path_parts_iff f LIB_RFSA_PARTS
    simp only [FileList.is_file_package]
    split_ifs with h1 h2 h3 h4 h5 <;>
      simp_all [specIsPackage]
  · intro fl f sec t2 hpkg hexp hadd
    simp [FileList.add_file, hpkg, hexp, hadd]

/-- C9 witness: in a fresh check-elf `FileList`, the `-`-marked APK file is
classified as a package, and adding it succeeds while printing exactly the
already-a-package warning. -/
theorem c9_package_classification_and_warning_witness :
    (FileList.init none true).is_file_package apkFile = true
    ∧ specIsPackage true apkFile
    ∧ ∃ fl2, (FileList.init none true).add_file apkFile none
        = Except.ok (fl2, [FLWarning.alreadyPackage]) := by
  refine ⟨by decide, ?_, ?_⟩
  · exact (c9_package_classification_and_warning.1 (FileList.init none true)
      apkFile).mp (by decide)
  · exact c9_package_classification_and_warning.2 (FileList.init none true)
      apkFile none
      ⟨[("a".data, FTNode.dict [("b.apk".data, FTNode.files [apkFile])])],
        [], false⟩
      (by decide) rfl rfl

/-- C4: inserting a second file whose destination equals an already-inserted
file's destination raises a duplicate-entry `ValueError` when the tree is in
non-common mode; in common mode the insertion succeeds and the second file
is appended to the same leaf's list. -/
theorem c4_duplicate_destination
    (t : FileTree) (f1 f2 : File) (t1 : FileTree)
    (hc : t.common = false)
    (hdst : f1.dst = f2.dst)
    (hp1 : f1.parts = splitOnChar '/' f1.dst)
    (hp2 : f2.parts = splitOnChar '/' f2.dst)
    (hadd : t.add f1 = Except.ok t1) :
    t1.add f2 = Except.error PyErr.valueError
    ∧ ∀ (ct ct1 : FileTree), ct.common = true →
        ct.add f1 = Except.ok ct1 →
        ∃ fs ct2, ct1.add f2 = Except.ok ct2
          ∧ leafAt ct1.tree f2.parts = some fs
          ∧ f1 ∈ fs
          ∧ leafAt ct2.tree f2.parts = some (fs ++ [f2]) := by
  have hparts : f2.parts = f1.parts := by rw [hp1, hp2, hdst]
  constructor
  · unfold FileTree.add FileTree.add_with_parts at hadd ⊢
    cases hres : addWithParts t.common f1 t.tree f1.parts with
    | error e => rw [hres, except_bind_error] at hadd; cases hadd
    | ok tr =>
      rw [hres, except_bind_ok, except_pure_eq_ok] at hadd
      cases hadd
      have hleaf1 := addWithParts_ok_leafAt t.common f1 f1.parts t.tree tr hres
      have hdup := addWithParts_dup_error f2 f1.parts tr
        ((leafAt t.tree f1.parts).getD [] ++ [f1]) hleaf1 (by simp)
      simp only [hc, hparts]
      rw [hdup, except_bind_error]
  · intro ct ct1 hcommon haddc
    unfold FileTree.add FileTree.add_with_parts at haddc ⊢
    cases hresc : addWithParts ct.common f1 ct.tree f1.parts with
    | error e => rw [hresc, except_bind_error] at haddc; cases haddc
    | ok trc =>
      rw [hresc, except_bind_ok, except_pure_eq_ok] at haddc
      cases haddc
      have hleafc := addWithParts_ok_leafAt ct.common f1 f1.parts ct.tree trc hresc
      obtain ⟨es2, hok2, hleaf2⟩ := addWithParts_common_ok f2 f1.parts trc
        ((leafAt ct.tree f1.parts).getD [] ++ [f1]) hleafc
      refine ⟨(leafAt ct.tree f1.parts).getD [] ++ [f1],
        { ct with tree := es2 }, ?_, ?_, ?_, ?_⟩
      · simp only [hcommon, hparts]
        rw [hok2, except_bind_ok, except_pure_eq_ok]
      · rw [hparts]
        exact hleafc
      · simp
      · rw [hparts]
        exact hleaf2

/-- C4 witness: a tree already holding `a/b`; re-inserting a file with the
same destination errors in non-common mode and appends in common mode. -/
theorem c4_duplicate_destination_witness :
    (⟨[("a".data, FTNode.dict [("b".data,
        FTNode.files [plainFile "a/b".data none none])])], [], false⟩
      : FileTree).add (plainFile "a/b".data (some "h".data) none)
      = Except.error PyErr.valueError
    ∧ ∃ fs ct2,
      (⟨[("a".data, FTNode.dict [("b".data,
          FTNode.files [plainFile "a/b".data none none])])], [], true⟩
        : FileTree).add (plainFile "a/b".data (some "h".data) none)
        = Except.ok ct2
      ∧ leafAt [("a".data, FTNode.dict [("b".data,
          FTNode.files [plainFile "a/b".data none none])])]
          (plainFile "a/b".data (some "h".data) none).parts = some fs
      ∧ plainFile "a/b".data none none ∈ fs
      ∧ leafAt ct2.tree (plainFile "a/b".data (some "h".data) none).parts
          = some (fs ++ [plainFile "a/b".data (some "h".data) none]) := by
  have h := c4_duplicate_destination ⟨[], [], false⟩
    (plainFile "a/b".data none none)
    (plainFile "a/b".data (some "h".data) none)
    ⟨[("a".data, FTNode.dict [("b".data,
        FTNode.files [plainFile "a/b".data none none])])], [], false⟩
    rfl rfl rfl rfl rfl
  exact ⟨h.1, h.2 ⟨[], [], true⟩
    ⟨[("a".data, FTNode.dict [("b".data,
        FTNode.files [plainFile "a/b".data none none])])], [], true⟩
    rfl rfl⟩

/-- C6 counterexample: when the segment list is a full file path, no
interior subtree matches it, yet `filter_prefixed` does not return an empty
result: the leaf list is detached (nulled in the parent) and the
`isinstance dict` assertion fails, aborting with `AssertionError` instead of
the `None` the claim predicts. -/
theorem c6_leaf_path_counterexample :
    (FileTree.mk [("a".data,
        FTNode.files [plainFile "a".data none none])] [] false).filter_prefixed
      ["a".data]
    = (Except.error PyErr.assertionError,
       FileTree.mk [("a".data, FTNode.null)] [] false) := by
  simp [FileTree.filter_prefixed, getPrefixedAux, skipKey, FTNode.isNull]

/-- C6 amended: on a well-formed tree (unique keys, no empty interior nodes
or leaves — invariants maintained by `add`), `filter_prefixed` detaches and
returns the subtree when an interior dictionary sits at the prefix
(afterwards the detached region yields no files and all other leaves are
unchanged, with the returned subtree holding exactly the files previously
under the prefix); when the prefix points at a leaf (a full file path), the
leaf is still detached but the call fails an assertion instead of returning
an empty result; and only when nothing (or a null marker) is at the prefix
does the call return an empty tree with the receiver unchanged. -/
theorem c6_filter_prefixed_characterization
    (t : FileTree) (p : List Str)
    (hk : wfKeysEs t.tree = true) (hn : wfNEEs t.tree = true) (hp : p ≠ []) :
    (∀ sub, nodeAt t.tree p = some (FTNode.dict sub) →
      ∃ t2, t.filter_prefixed p = (Except.ok ⟨sub, p, false⟩, t2)
        ∧ nodeAt t2.tree p = some FTNode.null
        ∧ (∀ ρ, ¬ p <+: ρ → leafAt t2.tree ρ = leafAt t.tree ρ)
        ∧ (∀ ρ, leafAt t2.tree (p ++ ρ) = none)
        ∧ (∀ ρ, ρ ≠ [] → leafAt t.tree (p ++ ρ) = leafAt sub ρ))
    ∧ (∀ fs, nodeAt t.tree p = some (FTNode.files fs) →
      ∃ t2, t.filter_prefixed p = (Except.error PyErr.assertionError, t2)
        ∧ nodeAt t2.tree p = some FTNode.null)
    ∧ ((nodeAt t.tree p = none ∨ nodeAt t.tree p = some FTNode.null) →
      t.filter_prefixed p = (Except.ok ⟨[], p, false⟩, t)) := by
  refine ⟨?_, ?_, ?_⟩
  · intro sub h
    obtain ⟨es2, hrec, hnull, hframe⟩ :=
      gp_found (esSize t.tree) t.tree p (FTNode.dict sub) (Nat.le_refl _)
        hk hn hp h (by intro hc; cases hc)
    refine ⟨{ t with tree := es2 }, ?_, hnull, hframe, ?_, ?_⟩
    · unfold FileTree.filter_prefixed
      rw [hrec]
    · intro ρ
      exact leafAt_of_null p hp es2 hnull ρ
    · intro ρ hρ
      cases ρ with
      | nil => exact absurd rfl hρ
      | cons r1 r2 =>
        rw [leafAt, nodeAt_append_match (r1 :: r2) (by simp) p t.tree hp, h]
        rfl
  · intro fs h
    obtain ⟨es2, hrec, hnull, _⟩ :=
      gp_found (esSize t.tree) t.tree p (FTNode.files fs) (Nat.le_refl _)
        hk hn hp h (by intro hc; cases hc)
    refine ⟨{ t with tree := es2 }, ?_, hnull⟩
    unfold FileTree.filter_prefixed
    rw [hrec]
  · intro h
    have hres := gp_no_match (esSize t.tree) t.tree p (Nat.le_refl _)
      hk hn hp h
    unfold FileTree.filter_prefixed
    rw [hres]

/-- C6 witness: detaching the interior subtree at `a` from a tree holding
`a/b` returns that subtree and nulls the slot in the receiver. -/
theorem c6_filter_prefixed_witness :
    ∃ t2, (FileTree.mk [("a".data, FTNode.dict [("b".data,
        FTNode.files [plainFile "a/b".data none none])])] [] false).filter_prefixed
        ["a".data]
      = (Except.ok ⟨[("b".data,
          FTNode.files [plainFile "a/b".data none none])], ["a".data], false⟩, t2)
      ∧ nodeAt t2.tree ["a".data] = some FTNode.null := by
  obtain ⟨t2, h1, h2, _⟩ :=
    (c6_filter_prefixed_characterization
      (FileTree.mk [("a".data, FTNode.dict [("b".data,
        FTNode.files [plainFile "a/b".data none none])])] [] false)
      ["a".data]
      (by simp [wfKeysEs, wfKeysNode])
      (by simp [wfNEEs, wfNENode])
      (by simp)).1
      [("b".data, FTNode.files [plainFile "a/b".data none none])]
      rfl
  exact ⟨t2, h1, h2⟩

end ExtractUtils
